import Mathlib

/-!
# Verification of the filter-folder extension's core logic

Shallow embedding of the parsing / path-codec / reconciliation / folder-creation
logic of the `tb-ext-filter-folder` repository (the `ext/` module family:
`ext/modules/RuleEngine.js`, `ext/modules/MailClient.js`, and the background
service worker), together with theorems settling the specification's claims.

Strings are modelled as `List Char` (sequences of Unicode scalar values; a
well-formed JavaScript string).  JavaScript operations that can throw are
modelled with `Except String` / `Option`; everything else is a plain function.
-/

set_option maxRecDepth 8000

namespace FilterFolder

/-- JavaScript strings are modelled as lists of Unicode scalar values. -/
abbrev Str := List Char

/-- Convenience: view a Lean string literal as a modelled JS string. -/
def str (s : String) : Str := s.data

/-- Prepend a character to the first piece of a split result
(the splitting scanners below accumulate the current piece this way). -/
def consHead (c : Char) : List Str → List Str
  | [] => [[c]]
  | p :: ps => (c :: p) :: ps

/-- `String.prototype.includes(m)`: `m` occurs as a contiguous substring. -/
def hasSubstr (m : Str) : Str → Bool
  | [] => m.isEmpty
  | c :: cs => m.isPrefixOf (c :: cs) || hasSubstr m cs

/-- `String.prototype.indexOf(m)`: index of the first occurrence of `m`. -/
def idxOfSubstr (m : Str) : Str → Option Nat
  | [] => if m.isEmpty then some 0 else none
  | c :: cs =>
    if m.isPrefixOf (c :: cs) then some 0
    else (idxOfSubstr m cs).map (· + 1)

/-- `String.prototype.split(sep)` for a single-character separator.
`"".split(sep) = [""]`, and separators at the ends produce empty pieces,
exactly as in JavaScript. -/
def splitOnChar (sep : Char) : Str → List Str
  | [] => [[]]
  | c :: cs =>
    if c = sep then [] :: splitOnChar sep cs
    else consHead c (splitOnChar sep cs)

/-- `Array.prototype.join(sep)` for a single-character separator. -/
def joinSep (sep : Char) : List Str → Str
  | [] => []
  | [s] => s
  | s :: ss => s ++ sep :: joinSep sep ss

/-- One character of `String.prototype.toLowerCase`.  The simple case mappings;
only the ASCII range is exercised by this development's concrete inputs, and no
Unicode lowercase mapping produces or consumes `@`, `.`, `/`, `%` or a quote,
so the structural theorems are unaffected by restricting to ASCII. -/
def jsLowerChar (c : Char) : Char :=
  if 'A' ≤ c ∧ c ≤ 'Z' then Char.ofNat (c.toNat + 32) else c

/-- `String.prototype.toLowerCase`. -/
def jsLower (s : Str) : Str := s.map jsLowerChar

/-- The WhiteSpace / LineTerminator set recognised by `String.prototype.trim`
(the code points relevant to this development). -/
def isJsWhite (c : Char) : Bool :=
  c = ' ' || c = '\t' || c = '\n' || c = '\r' ||
  c = '\u000b' || c = '\u000c' || c = '\u00a0' || c = '\u1680' ||
  (8192 <= c.toNat && c.toNat <= 8202) ||
  c = '\u2028' || c = '\u2029' || c = '\u202f' || c = '\u205f' ||
  c = '\u3000' || c = '\ufeff'

/-- `String.prototype.trim`. -/
def jsTrim (s : Str) : Str :=
  ((s.dropWhile isJsWhite).reverse.dropWhile isJsWhite).reverse

/-- Count occurrences of a character. -/
def countChar (c : Char) : Str → Nat
  | [] => 0
  | b :: bs => (if b = c then 1 else 0) + countChar c bs

/-- `Set.prototype.has` / `Array.prototype.includes` on a collection of
strings (JavaScript `Set`s are modelled as lists; only membership is used). -/
def listHas (l : List Str) (x : Str) : Bool := l.any (· = x)

-- ===========================================================================
-- PathCodec: `emailToPath`  (ext/modules/RuleEngine.js)
-- ===========================================================================

/-- `RuleEngine.emailToPath`:
lower-case, trim, split on `@`; exactly two parts required; the result is the
domain's dot-labels reversed followed by the local part, joined with `/`. -/
def emailToPath (email : Str) : Option Str :=
  let parts := splitOnChar '@' (jsTrim (jsLower email))
  match parts with
  | [user, domain] =>
    some (joinSep '/' ((splitOnChar '.' domain).reverse ++ [user]))
  | _ => none

-- ===========================================================================
-- `calculateType`  (ext/modules/RuleEngine.js)
-- ===========================================================================

/-- The boolean trigger options consumed by `RuleEngine.calculateType`. -/
structure TypeOptions where
  manual : Bool
  newMail : Bool
  afterSending : Bool
  archiving : Bool
  periodic : Bool
deriving DecidableEq

/-- `RuleEngine.calculateType`: sum the selected trigger bit values
(NEW_MAIL=1, MANUAL=16, SENDING=32, ARCHIVE=64, PERIODIC=128), defaulting to
17 (MANUAL + NEW_MAIL) when the sum is zero. -/
def calculateType (o : TypeOptions) : Nat :=
  let v := 0
  let v := if o.newMail then v + 1 else v
  let v := if o.manual then v + 16 else v
  let v := if o.afterSending then v + 32 else v
  let v := if o.archiving then v + 64 else v
  let v := if o.periodic then v + 128 else v
  if v = 0 then 17 else v

/-- The sum of the bit values of the selected trigger flags (spec wording). -/
def triggerBitSum (o : TypeOptions) : Nat :=
  (if o.newMail then 1 else 0) + (if o.manual then 16 else 0) +
  (if o.afterSending then 32 else 0) + (if o.archiving then 64 else 0) +
  (if o.periodic then 128 else 0)

-- ===========================================================================
-- ReconciliationEngine: the diff of the background worker
-- (`buildExistingSets` / `isMissingPath` and the `missing` filter)
-- ===========================================================================

/-- A snapshot of one folder of the host's tree, as produced by
`MailClient.scanAccount` (`createFolderItem`). -/
structure Folder where
  id : Str
  name : Str
  path : Str
  cleanPath : Str
  ftype : Str
deriving DecidableEq

/-- `buildExistingSets`: the exact and lower-cased `cleanPath` sets.
JavaScript `Set`s are modelled as lists; only membership is consumed. -/
structure ExistingSets where
  exact : List Str
  lower : List Str

/-- `buildExistingSets(folders)`. -/
def buildExistingSets (folders : List Folder) : ExistingSets :=
  ⟨folders.map (·.cleanPath), folders.map (fun f => jsLower f.cleanPath)⟩

/-- `isMissingPath(existingSets, mergeCase, path)`. -/
def isMissingPath (es : ExistingSets) (mergeCase : Bool) (p : Str) : Bool :=
  if listHas es.exact p then false
  else if mergeCase && listHas es.lower (jsLower p) then false
  else true

/-- The diff step of `analyze`:
`missing = requiredPaths.filter(path => isMissingPath(existingSets, mergeCase, path))`. -/
def diffPaths (required : List Str) (folders : List Folder) (mergeCase : Bool) :
    List Str :=
  required.filter (fun p => isMissingPath (buildExistingSets folders) mergeCase p)

-- ===========================================================================
-- Supporting lemmas for the split / join / count toolkit
-- ===========================================================================

theorem splitOnChar_ne_nil (sep : Char) (s : Str) : splitOnChar sep s ≠ [] := by
  cases s with
  | nil => simp [splitOnChar]
  | cons c cs =>
    simp only [splitOnChar]
    split
    · simp
    · cases h : splitOnChar sep cs with
      | nil => simp [consHead]
      | cons p ps => simp [consHead]

theorem length_consHead (c : Char) (l : List Str) (h : l ≠ []) :
    (consHead c l).length = l.length := by
  cases l with
  | nil => exact absurd rfl h
  | cons p ps => simp [consHead]

theorem length_splitOnChar (sep : Char) (s : Str) :
    (splitOnChar sep s).length = countChar sep s + 1 := by
  induction s with
  | nil => simp [splitOnChar, countChar]
  | cons c cs ih =>
    simp only [splitOnChar]
    split
    · rename_i h
      subst h
      simp only [List.length_cons, ih, countChar]
      simp
      omega
    · rename_i h
      rw [length_consHead _ _ (splitOnChar_ne_nil sep cs), ih]
      simp only [countChar]
      rw [if_neg h]
      omega

theorem splitOnChar_of_not_mem (sep : Char) (s : Str) (h : sep ∉ s) :
    splitOnChar sep s = [s] := by
  induction s with
  | nil => rfl
  | cons c cs ih =>
    simp only [List.mem_cons, not_or] at h
    have hc : ¬ (c = sep) := fun hh => h.1 hh.symm
    simp only [splitOnChar, if_neg hc, ih h.2, consHead]

theorem splitOnChar_append (sep : Char) (a b : Str) (h : sep ∉ a) :
    splitOnChar sep (a ++ sep :: b) = a :: splitOnChar sep b := by
  induction a with
  | nil => simp [splitOnChar]
  | cons c cs ih =>
    simp only [List.mem_cons, not_or] at h
    have hc : ¬ (c = sep) := fun hh => h.1 hh.symm
    simp only [List.cons_append, splitOnChar, if_neg hc, consHead]
    rw [List.append_eq, ih h.2]

/-- Occurrence count of a string in a list of strings (no deduplication). -/
def countOcc (x : Str) : List Str → Nat
  | [] => 0
  | y :: ys => (if y = x then 1 else 0) + countOcc x ys

theorem countOcc_filter (f : Str → Bool) (x : Str) (l : List Str) :
    countOcc x (l.filter f) = if f x then countOcc x l else 0 := by
  induction l with
  | nil => simp [countOcc]
  | cons y ys ih =>
    by_cases hy : y = x
    · subst hy
      by_cases hf : f y <;> simp [List.filter_cons, hf, countOcc, ih]
    · by_cases hf : f y <;> simp [List.filter_cons, hf, countOcc, ih, hy]
-- ===========================================================================
-- C8: `emailToPath`
-- ===========================================================================

/-- **C8.** `emailToPath` returns a non-null path exactly when the string,
after lower-casing and trimming, contains exactly one `@`; the result is then
the domain's dot-separated labels reversed, followed by the local part, joined
with `/`; a string with zero or two-or-more `@` yields null.  The example
`bob@mail.example.co.uk ↦ uk/co/example/mail/bob` is included. -/
theorem emailToPath_spec :
    (∀ e : Str, countChar '@' (jsTrim (jsLower e)) ≠ 1 → emailToPath e = none) ∧
    (∀ e u d : Str, jsTrim (jsLower e) = u ++ '@' :: d → '@' ∉ u → '@' ∉ d →
      emailToPath e = some (joinSep '/' ((splitOnChar '.' d).reverse ++ [u]))) ∧
    emailToPath (str "bob@mail.example.co.uk") =
      some (str "uk/co/example/mail/bob") := by
  refine ⟨?_, ?_, by decide⟩
  · intro e h
    unfold emailToPath
    have hl := length_splitOnChar '@' (jsTrim (jsLower e))
    match hp : splitOnChar '@' (jsTrim (jsLower e)) with
    | [] => simp
    | [a] => simp
    | [a, b] =>
      rw [hp] at hl
      simp at hl
      omega
    | a :: b :: c :: rest => simp
  · intro e u d hsplit hu hd
    unfold emailToPath
    rw [hsplit, splitOnChar_append '@' u d hu, splitOnChar_of_not_mem '@' d hd]

/-- Witness for `emailToPath_spec`: the null case at `a@b@c` (two `@`) and the
positive case at the specification's example address. -/
theorem emailToPath_spec_witness :
    emailToPath (str "a@b@c") = none ∧
    emailToPath (str "bob@mail.example.co.uk") =
      some (str "uk/co/example/mail/bob") := by
  constructor
  · exact emailToPath_spec.1 (str "a@b@c") (by decide)
  · exact emailToPath_spec.2.2

-- ===========================================================================
-- C9: `calculateType`
-- ===========================================================================

/-- **C9.** `calculateType` returns the sum of the bit values of the selected
trigger flags, defaulting to 17 (MANUAL + NEW_MAIL) when no flag is set, so it
never returns a zero mask; in particular the empty options give 17, manual
alone gives 16, and newMail + archiving give 65. -/
theorem calculateType_spec :
    (∀ o : TypeOptions,
      calculateType o = (if triggerBitSum o = 0 then 17 else triggerBitSum o) ∧
      calculateType o ≠ 0) ∧
    calculateType ⟨false, false, false, false, false⟩ = 17 ∧
    calculateType ⟨true, false, false, false, false⟩ = 16 ∧
    calculateType ⟨false, true, false, true, false⟩ = 65 := by
  refine ⟨fun o => ?_, by decide, by decide, by decide⟩
  obtain ⟨m, n, s, a, p⟩ := o
  cases m <;> cases n <;> cases s <;> cases a <;> cases p <;>
    exact ⟨by decide, by decide⟩

-- ===========================================================================
-- C3: the reconciliation diff
-- ===========================================================================

theorem listHas_iff_mem (l : List Str) (x : Str) : listHas l x = true ↔ x ∈ l := by
  simp only [listHas, List.any_eq_true, decide_eq_true_eq]
  constructor
  · rintro ⟨y, hy, rfl⟩
    exact hy
  · intro hx
    exact ⟨x, hx, rfl⟩

theorem isMissingPath_iff (folders : List Folder) (mc : Bool) (p : Str) :
    isMissingPath (buildExistingSets folders) mc p = true ↔
      p ∉ folders.map (·.cleanPath) ∧
        (mc = false ∨ jsLower p ∉ folders.map (fun f => jsLower f.cleanPath)) := by
  simp only [isMissingPath, buildExistingSets]
  by_cases h1 : p ∈ folders.map (·.cleanPath)
  · have h1c : listHas (folders.map (·.cleanPath)) p = true :=
      (listHas_iff_mem _ _).mpr h1
    simp [h1c, h1]
  · have h1c : listHas (folders.map (·.cleanPath)) p = false := by
      rw [Bool.eq_false_iff]
      intro hbad
      exact h1 ((listHas_iff_mem _ _).mp hbad)
    by_cases h2 : jsLower p ∈ folders.map (fun f => jsLower f.cleanPath)
    · have h2c : listHas (folders.map (fun f => jsLower f.cleanPath)) (jsLower p)
          = true := (listHas_iff_mem _ _).mpr h2
      cases mc <;> simp [h1c, h2c, h1, h2]
    · have h2c : listHas (folders.map (fun f => jsLower f.cleanPath)) (jsLower p)
          = false := by
        rw [Bool.eq_false_iff]
        intro hbad
        exact h2 ((listHas_iff_mem _ _).mp hbad)
      cases mc <;> simp [h1c, h2c, h1, h2]

/-- **C3.** A required path appears in the diff result iff it is absent from
the set of existing `cleanPath`s and (`mergeCase` is false, or it is also
absent from the lower-cased set); the result is a sublist of the required list
(input order preserved) and keeps each occurrence (no deduplication); when the
existing folders contain every required path the result is empty; and a path
whose existing counterpart differs only in case is missing exactly when
`mergeCase` is false. -/
theorem diffPaths_spec :
    (∀ (required : List Str) (folders : List Folder) (mc : Bool) (p : Str),
      p ∈ diffPaths required folders mc ↔
        p ∈ required ∧ p ∉ folders.map (·.cleanPath) ∧
          (mc = false ∨ jsLower p ∉ folders.map (fun f => jsLower f.cleanPath))) ∧
    (∀ (required : List Str) (folders : List Folder) (mc : Bool),
      (diffPaths required folders mc).Sublist required) ∧
    (∀ (required : List Str) (folders : List Folder) (mc : Bool) (p : Str),
      countOcc p (diffPaths required folders mc) =
        if isMissingPath (buildExistingSets folders) mc p then countOcc p required
        else 0) ∧
    (∀ (required : List Str) (folders : List Folder) (mc : Bool),
      (∀ p ∈ required, p ∈ folders.map (·.cleanPath)) →
      diffPaths required folders mc = []) ∧
    (∀ (es : ExistingSets) (mc : Bool) (p : Str),
      listHas es.exact p = false → listHas es.lower (jsLower p) = true →
      (isMissingPath es mc p = true ↔ mc = false)) := by
  refine ⟨?_, ?_, ?_, ?_, ?_⟩
  · intro required folders mc p
    unfold diffPaths
    rw [List.mem_filter, isMissingPath_iff]
  · intro required folders mc
    exact List.filter_sublist required
  · intro required folders mc p
    exact countOcc_filter _ p required
  · intro required folders mc hall
    unfold diffPaths
    rw [List.filter_eq_nil_iff]
    intro p hp hbad
    exact ((isMissingPath_iff folders mc p).mp hbad).1 (hall p hp)
  · intro es mc p h1 h2
    simp only [isMissingPath, h1, if_neg (by simp : ¬ (false = true))]
    cases mc
    · simp
    · simp [h2]

/-- Witness for `diffPaths_spec`: a concrete fully-covered diff is empty, and a
case-only difference is reported missing exactly when `mergeCase` is false. -/
theorem diffPaths_spec_witness :
    diffPaths [str "A/B"] [⟨str "1", str "B", str "/A/B", str "A/B", str "x"⟩]
      false = [] ∧
    (isMissingPath ⟨[str "Foo"], [str "foo"]⟩ false (str "foo") = true ↔
      false = false) := by
  constructor
  · exact diffPaths_spec.2.2.2.1 [str "A/B"]
      [⟨str "1", str "B", str "/A/B", str "A/B", str "x"⟩] false (by decide)
  · exact diffPaths_spec.2.2.2.2 ⟨[str "Foo"], [str "foo"]⟩ false (str "foo")
      (by decide) (by decide)

-- ===========================================================================
-- FolderCreator: the background worker's `createFolders` pipeline
-- (`sortPathsByDepth`, `findInboxFolder`, `getParentId`, `createAndCache`,
-- `processPath`, `handleCreationError`, `createFolders`)
-- ===========================================================================

/-- Depth of a path as used by `sortPathsByDepth`: `path.split('/').length`. -/
def pathDepth (p : Str) : Nat := (splitOnChar '/' p).length

/-- Stable insertion of a path into an already depth-sorted list: the new
element goes after every element whose depth is less than or equal to its own. -/
def insertByDepth (x : Str) : List Str → List Str
  | [] => [x]
  | y :: ys => if pathDepth y ≤ pathDepth x then y :: insertByDepth x ys
               else x :: y :: ys

/-- `MailClient.sortPathsByDepth`:
`[...paths].sort((a, b) => a.split('/').length - b.split('/').length)`.
`Array.prototype.sort` is stable (ES2019), and a stable sort under this
comparator (a total preorder induced by the depth key) has a unique result,
modelled here by stable insertion sort. -/
def sortPathsByDepth (paths : List Str) : List Str :=
  paths.foldl (fun acc x => insertByDepth x acc) []

/-- `findInboxFolder(folders)`:
`folders.find(f => f.type === 'inbox' || f.name === 'Inbox') || folders[0]`,
`null` on an empty list. -/
def findInboxFolder (folders : List Folder) : Option Folder :=
  match folders with
  | [] => none
  | f :: fs =>
    match (f :: fs).find? (fun g => g.ftype = str "inbox" || g.name = str "Inbox") with
    | some g => some g
    | none => some f

/-- The folder index: a JavaScript `Map` from lower-cased clean path to folder,
modelled as an association list in insertion order (JS `Map`s preserve it). -/
abbrev FolderMap := List (Str × Folder)

/-- `Map.prototype.has`. -/
def mapHas (m : FolderMap) (k : Str) : Bool := m.any (·.1 = k)

/-- `Map.prototype.get` (`none` for a missing key). -/
def mapGet (m : FolderMap) (k : Str) : Option Folder :=
  (m.find? (·.1 = k)).map (·.2)

/-- `Map.prototype.set`: replace in place if the key exists, else append. -/
def mapSet (m : FolderMap) (k : Str) (v : Folder) : FolderMap :=
  if mapHas m k then m.map (fun kv => if kv.1 = k then (k, v) else kv)
  else m ++ [(k, v)]

/-- `new Map(pairs)`. -/
def mapOfPairs (ps : List (Str × Folder)) : FolderMap :=
  ps.foldl (fun m kv => mapSet m kv.1 kv.2) []

/-- The host capability `createFolder(parentId, name)`; an arbitrary
asynchronous host call that either returns the created folder or throws an
error message. -/
abbrev Host := Str → Str → Except Str Folder

/-- `path.replace(/^\/+/, '')`. -/
def dropLeadingSlashes (s : Str) : Str := s.dropWhile (· = '/')

/-- `getParentId(folderMap, inbox, pathParts, index)`: segment 0's parent is
the inbox; a later segment's parent is looked up by its own prefix path
(lower-cased) in the index, throwing `Missing parent: <path>` when absent. -/
def getParentId (fm : FolderMap) (inbox : Folder) (parts : List Str) (j : Nat) :
    Except Str Str :=
  if j = 0 then .ok inbox.id
  else
    match mapGet fm (jsLower (joinSep '/' (parts.take j))) with
    | none =>
      .error (str "Missing parent: " ++ jsLower (joinSep '/' (parts.take j)))
    | some f => .ok f.id

/-- `createAndCache(folderMap, parentId, name)`: call the host, strip leading
slashes from the returned path, and cache the new node under the lower-cased
clean path (the returned state is the updated map, or the state before the
throwing call together with the error message). -/
def createAndCache (host : Host) (fm : FolderMap) (parentId name : Str) :
    FolderMap × Option Str :=
  match host parentId name with
  | .error e => (fm, some e)
  | .ok created =>
    let createdPath := dropLeadingSlashes created.path
    (mapSet fm (jsLower createdPath) { created with cleanPath := createdPath },
      none)

/-- The body of `processPath`'s segment loop: process segments `j`,
`j+1`, ... as long as the remaining-iteration counter (initially
`parts.length`, so the loop stops exactly at `j = parts.length`) is positive.
The map is threaded through so that segments created before a throwing
segment stay cached, exactly as with the mutable JS `Map`. -/
def processSegsFrom (host : Host) (inbox : Folder) (parts : List Str) :
    Nat → Nat → FolderMap → FolderMap × Option Str
  | _, 0, fm => (fm, none)
  | j, rem + 1, fm =>
    let currentPath := joinSep '/' (parts.take (j + 1))
    let normalized := jsLower currentPath
    if mapHas fm normalized then processSegsFrom host inbox parts (j + 1) rem fm
    else
      match getParentId fm inbox parts j with
      | .error e => (fm, some e)
      | .ok parentId =>
        match createAndCache host fm parentId (parts.getD j []) with
        | (fm2, some e) => (fm2, some e)
        | (fm2, none) => processSegsFrom host inbox parts (j + 1) rem fm2

/-- `processPath(folderMap, inbox, path)`: split on `/` and walk the segments
left to right (`j` from `0` to `parts.length - 1`). -/
def processPath (host : Host) (inbox : Folder) (fm : FolderMap) (path : Str) :
    FolderMap × Option Str :=
  let parts := splitOnChar '/' path
  processSegsFrom host inbox parts 0 parts.length fm

/-- The accumulated results of a creation batch. -/
structure CreateResults where
  created : List Str
  failed : List (Str × Str)
deriving DecidableEq

/-- `handleCreationError(error, path, results)`: an `already exists` error is
reclassified as success; any other error lands the path in `failed` with the
triggering message. -/
def handleCreationError (errMsg path : Str) (r : CreateResults) : CreateResults :=
  if hasSubstr (str "already exists") errMsg then
    { r with created := r.created ++ [path] }
  else
    { r with failed := r.failed ++ [(path, errMsg)] }

/-- The per-path loop of `createFolders` (progress/port events carry no data
dependency and are omitted).  Returns the results and the final folder index. -/
def createLoop (host : Host) (inbox : Folder) :
    List Str → FolderMap → CreateResults → CreateResults × FolderMap
  | [], fm, r => (r, fm)
  | p :: ps, fm, r =>
    match processPath host inbox fm p with
    | (fm2, none) =>
      createLoop host inbox ps fm2 { r with created := r.created ++ [p] }
    | (fm2, some e) =>
      createLoop host inbox ps fm2 (handleCreationError e p r)

/-- `createFolders(data, port)`: sort the paths by depth, snapshot the scanned
folders into the index (keyed by lower-cased clean path), find the inbox
(throwing `No inbox folder found` if there is none), and process each path in
sorted order.  The host's `scanAccount` snapshot is abstracted as the
`folders` argument; the local folder index is returned alongside the results
(the source keeps it in a local variable). -/
def createFolders (host : Host) (folders : List Folder) (paths : List Str) :
    Except Str (CreateResults × FolderMap) :=
  let sorted := sortPathsByDepth paths
  let fm := mapOfPairs (folders.map (fun f => (jsLower f.cleanPath, f)))
  match findInboxFolder folders with
  | none => .error (str "No inbox folder found")
  | some inbox => .ok (createLoop host inbox sorted fm ⟨[], []⟩)

-- ===========================================================================
-- Properties of `sortPathsByDepth` (permutation, sortedness, stability)
-- ===========================================================================

theorem insertByDepth_perm (x : Str) (l : List Str) :
    (insertByDepth x l).Perm (x :: l) := by
  induction l with
  | nil => simp [insertByDepth]
  | cons y ys ih =>
    simp only [insertByDepth]
    split
    · exact (ih.cons y).trans (List.Perm.swap x y ys)
    · exact List.Perm.refl _

theorem sortPathsByDepth_go_perm (ps : List Str) :
    ∀ acc : List Str,
      (ps.foldl (fun a x => insertByDepth x a) acc).Perm (acc ++ ps) := by
  induction ps with
  | nil => simp
  | cons p ps ih =>
    intro acc
    have h1 := ih (insertByDepth p acc)
    have h2 : (insertByDepth p acc ++ ps).Perm ((p :: acc) ++ ps) :=
      (insertByDepth_perm p acc).append_right ps
    have h3 : ((p :: acc) ++ ps).Perm (acc ++ p :: ps) := by
      simpa using (@List.perm_middle _ p acc ps).symm
    rw [List.foldl_cons]
    exact h1.trans (h2.trans h3)

theorem sortPathsByDepth_perm (ps : List Str) : (sortPathsByDepth ps).Perm ps := by
  simpa using sortPathsByDepth_go_perm ps []

theorem insertByDepth_pairwise (x : Str) (l : List Str)
    (h : l.Pairwise (fun a b => pathDepth a ≤ pathDepth b)) :
    (insertByDepth x l).Pairwise (fun a b => pathDepth a ≤ pathDepth b) := by
  induction l with
  | nil => simp [insertByDepth]
  | cons y ys ih =>
    rcases List.pairwise_cons.mp h with ⟨hy, hys⟩
    simp only [insertByDepth]
    split
    · rename_i hle
      refine List.pairwise_cons.mpr ⟨?_, ih hys⟩
      intro z hz
      rcases List.mem_cons.mp ((insertByDepth_perm x ys).mem_iff.mp hz) with rfl | hz2
      · exact hle
      · exact hy z hz2
    · rename_i hgt
      push_neg at hgt
      refine List.pairwise_cons.mpr ⟨?_, h⟩
      intro z hz
      rcases List.mem_cons.mp hz with rfl | hz2
      · omega
      · exact le_trans (le_of_lt hgt) (hy z hz2)

theorem sortPathsByDepth_sorted (ps : List Str) :
    (sortPathsByDepth ps).Pairwise (fun a b => pathDepth a ≤ pathDepth b) := by
  have go : ∀ acc : List Str,
      acc.Pairwise (fun a b => pathDepth a ≤ pathDepth b) →
      (ps.foldl (fun a x => insertByDepth x a) acc).Pairwise
        (fun a b => pathDepth a ≤ pathDepth b) := by
    induction ps with
    | nil =>
      intro acc h
      simpa using h
    | cons p ps ih =>
      intro acc h
      rw [List.foldl_cons]
      exact ih (insertByDepth p acc) (insertByDepth_pairwise p acc h)
  simpa [sortPathsByDepth] using go [] (by simp)

theorem filter_depth_of_all_gt (d : Nat) (l : List Str)
    (h : ∀ z ∈ l, d < pathDepth z) :
    l.filter (fun p => pathDepth p = d) = [] := by
  rw [List.filter_eq_nil_iff]
  intro z hz
  have := h z hz
  simp only [decide_eq_true_eq]
  omega

theorem filter_insertByDepth (d : Nat) (x : Str) (l : List Str)
    (hs : l.Pairwise (fun a b => pathDepth a ≤ pathDepth b)) :
    (insertByDepth x l).filter (fun p => pathDepth p = d) =
      if pathDepth x = d then l.filter (fun p => pathDepth p = d) ++ [x]
      else l.filter (fun p => pathDepth p = d) := by
  induction l with
  | nil =>
    simp only [insertByDepth, List.filter_nil]
    by_cases hx : pathDepth x = d <;> simp [hx]
  | cons y ys ih =>
    rcases List.pairwise_cons.mp hs with ⟨hy, hys⟩
    simp only [insertByDepth]
    split
    · rename_i hle
      by_cases hyd : pathDepth y = d <;>
        by_cases hxd : pathDepth x = d <;>
          simp [List.filter_cons, hyd, hxd, ih hys]
    · rename_i hgt
      push_neg at hgt
      by_cases hxd : pathDepth x = d
      · have hemp : (y :: ys).filter (fun p => pathDepth p = d) = [] := by
          refine filter_depth_of_all_gt d (y :: ys) ?_
          intro z hz
          rcases List.mem_cons.mp hz with rfl | hz2
          · omega
          · have := hy z hz2
            omega
        simp [List.filter_cons, hxd, hemp]
      · simp [List.filter_cons, hxd]

theorem sortPathsByDepth_stable (ps : List Str) (d : Nat) :
    (sortPathsByDepth ps).filter (fun p => pathDepth p = d) =
      ps.filter (fun p => pathDepth p = d) := by
  have go : ∀ acc : List Str,
      acc.Pairwise (fun a b => pathDepth a ≤ pathDepth b) →
      (ps.foldl (fun a x => insertByDepth x a) acc).filter
          (fun p => pathDepth p = d) =
        acc.filter (fun p => pathDepth p = d) ++
          ps.filter (fun p => pathDepth p = d) := by
    induction ps with
    | nil =>
      intro acc h
      simp
    | cons p ps ih =>
      intro acc h
      rw [List.foldl_cons, ih (insertByDepth p acc) (insertByDepth_pairwise p acc h),
        filter_insertByDepth d p acc h]
      by_cases hpd : pathDepth p = d <;> simp [hpd, List.filter_cons]
  simpa [sortPathsByDepth] using go [] (by simp)

-- ===========================================================================
-- C10: the creation batch partitions its input
-- ===========================================================================

instance {ε α : Type} [DecidableEq ε] [DecidableEq α] :
    DecidableEq (Except ε α)
  | .ok a, .ok b =>
    if h : a = b then .isTrue (by rw [h]) else .isFalse (by simp [h])
  | .ok _, .error _ => .isFalse (by simp)
  | .error _, .ok _ => .isFalse (by simp)
  | .error e, .error f =>
    if h : e = f then .isTrue (by rw [h]) else .isFalse (by simp [h])

/-- The multiset of paths recorded in a result accumulator. -/
def recordedPaths (r : CreateResults) : List Str :=
  r.created ++ r.failed.map (·.1)

theorem recordedPaths_handleCreationError (e p : Str) (r : CreateResults) :
    (recordedPaths (handleCreationError e p r)).Perm (recordedPaths r ++ [p]) := by
  unfold handleCreationError recordedPaths
  split
  · refine List.perm_iff_count.mpr fun a => ?_
    by_cases hap : p = a <;>
      simp [hap, List.count_append, List.count_cons]
  · simp

theorem createLoop_recorded (host : Host) (inbox : Folder) :
    ∀ (ps : List Str) (fm : FolderMap) (r : CreateResults),
      (recordedPaths (createLoop host inbox ps fm r).1).Perm
        (recordedPaths r ++ ps) := by
  intro ps
  induction ps with
  | nil =>
    intro fm r
    simp [createLoop]
  | cons p ps ih =>
    intro fm r
    simp only [createLoop]
    cases hpp : processPath host inbox fm p with
    | mk fm2 err =>
      cases err with
      | none =>
        simp only
        refine (ih fm2 _).trans (List.perm_iff_count.mpr fun a => ?_)
        by_cases hap : p = a <;>
          simp [hap, recordedPaths, List.count_append, List.count_cons] <;>
          omega
      | some e =>
        simp only
        refine (ih fm2 _).trans ?_
        refine ((recordedPaths_handleCreationError e p r).append_right ps).trans
          (List.perm_iff_count.mpr fun a => ?_)
        by_cases hap : p = a <;>
          simp [hap, List.count_append, List.count_cons]

/-- **C10.** When the creation batch runs to completion, the results partition
the input: the multiset `created ++ failed-paths` is a permutation of the
input paths, so `created.length + failed.length` equals the number of input
paths and every input occurrence is recorded in exactly one of the two lists. -/
theorem createFolders_partition (host : Host) (folders : List Folder)
    (paths : List Str) (r : CreateResults) (fm : FolderMap)
    (h : createFolders host folders paths = .ok (r, fm)) :
    (r.created ++ r.failed.map (·.1)).Perm paths ∧
    r.created.length + r.failed.length = paths.length := by
  unfold createFolders at h
  cases hfi : findInboxFolder folders with
  | none => rw [hfi] at h; exact absurd h (by simp)
  | some inbox =>
    rw [hfi] at h
    simp only [Except.ok.injEq] at h
    have hr : (createLoop host inbox (sortPathsByDepth paths)
        (mapOfPairs (folders.map fun f => (jsLower f.cleanPath, f))) ⟨[], []⟩).1
        = r := by rw [h]
    have hperm := createLoop_recorded host inbox (sortPathsByDepth paths)
      (mapOfPairs (folders.map fun f => (jsLower f.cleanPath, f))) ⟨[], []⟩
    rw [hr] at hperm
    have : (recordedPaths r).Perm paths := by
      refine hperm.trans ?_
      simpa [recordedPaths] using sortPathsByDepth_perm paths
    refine ⟨this, ?_⟩
    have hlen := this.length_eq
    simpa [recordedPaths] using hlen

/-- Witness for `createFolders_partition` at a concrete successful run. -/
theorem createFolders_partition_witness :
    ((([str "X"] : List Str) ++ ([] : List (Str × Str)).map (·.1)).Perm
      [str "X"]) ∧
    ([str "X"] : List Str).length + ([] : List (Str × Str)).length =
      ([str "X"] : List Str).length := by
  exact createFolders_partition
    (fun parentId name => .ok ⟨parentId ++ '/' :: name, name,
      parentId ++ '/' :: name, [], []⟩)
    [⟨[], str "Inbox", str "/Inbox", str "Inbox", str "inbox"⟩]
    [str "X"] ⟨[str "X"], []⟩
    [(str "inbox", ⟨[], str "Inbox", str "/Inbox", str "Inbox", str "inbox"⟩),
     (str "x", ⟨str "/X", str "X", str "/X", str "X", []⟩)]
    (by decide)

-- ===========================================================================
-- C2: error handling of the creation batch
-- ===========================================================================

theorem createLoop_failed_no_already (host : Host) (inbox : Folder) :
    ∀ (ps : List Str) (fm : FolderMap) (r : CreateResults),
      (∀ pe ∈ r.failed, hasSubstr (str "already exists") pe.2 = false) →
      ∀ pe ∈ (createLoop host inbox ps fm r).1.failed,
        hasSubstr (str "already exists") pe.2 = false := by
  intro ps
  induction ps with
  | nil =>
    intro fm r h
    simpa [createLoop] using h
  | cons p ps ih =>
    intro fm r h
    simp only [createLoop]
    cases hpp : processPath host inbox fm p with
    | mk fm2 err =>
      cases err with
      | none =>
        exact ih fm2 _ (by simpa using h)
      | some e =>
        refine ih fm2 _ ?_
        unfold handleCreationError
        split
        · simpa using h
        · rename_i hno
          intro pe hpe
          rcases List.mem_append.mp hpe with hpe1 | hpe2
          · exact h pe hpe1
          · simp only [List.mem_singleton] at hpe2
            subst hpe2
            simpa using hno

/-- **C2.** For every path whose processing throws: an error whose message
contains `already exists` records the path as created; any other error records
the path in `failed` together with the triggering message; in both cases the
loop continues with the remaining paths.  Moreover, once an inbox exists the
whole batch runs the per-path loop and never aborts, and no entry of the
`failed` list ever carries an `already exists` message. -/
theorem creation_error_handling :
    (∀ (host : Host) (folders : List Folder) (paths : List Str) (inbox : Folder),
      findInboxFolder folders = some inbox →
      createFolders host folders paths =
        .ok (createLoop host inbox (sortPathsByDepth paths)
          (mapOfPairs (folders.map fun f => (jsLower f.cleanPath, f))) ⟨[], []⟩)) ∧
    (∀ (host : Host) (inbox : Folder) (p : Str) (ps : List Str)
        (fm fm2 : FolderMap) (r : CreateResults) (e : Str),
      processPath host inbox fm p = (fm2, some e) →
      createLoop host inbox (p :: ps) fm r =
        createLoop host inbox ps fm2
          (if hasSubstr (str "already exists") e then
            { r with created := r.created ++ [p] }
           else { r with failed := r.failed ++ [(p, e)] })) ∧
    (∀ (host : Host) (folders : List Folder) (paths : List Str)
        (r : CreateResults) (fm : FolderMap),
      createFolders host folders paths = .ok (r, fm) →
      ∀ pe ∈ r.failed, hasSubstr (str "already exists") pe.2 = false) := by
  refine ⟨?_, ?_, ?_⟩
  · intro host folders paths inbox hfi
    unfold createFolders
    rw [hfi]
  · intro host inbox p ps fm fm2 r e hpp
    simp only [createLoop, hpp]
    unfold handleCreationError
    rfl
  · intro host folders paths r fm h
    unfold createFolders at h
    cases hfi : findInboxFolder folders with
    | none =>
      rw [hfi] at h
      exact absurd h (by simp)
    | some inbox =>
      rw [hfi] at h
      simp only [Except.ok.injEq] at h
      have hr : (createLoop host inbox (sortPathsByDepth paths)
          (mapOfPairs (folders.map fun f => (jsLower f.cleanPath, f)))
          ⟨[], []⟩).1 = r := by rw [h]
      rw [← hr]
      exact createLoop_failed_no_already host inbox _ _ _ (by simp)

/-- Witness for `creation_error_handling`: a host whose error message carries
`already exists` yields a created entry, a host with another message yields a
failed entry with that message, and the batch runs to completion either way. -/
theorem creation_error_handling_witness :
    createFolders (fun _ _ => .error (str "the folder already exists"))
        [⟨[], str "Inbox", str "/Inbox", str "Inbox", str "inbox"⟩]
        [str "Q"] =
      .ok (⟨[str "Q"], []⟩,
        [(str "inbox", ⟨[], str "Inbox", str "/Inbox", str "Inbox", str "inbox"⟩)]) ∧
    createFolders (fun _ _ => .error (str "permission denied"))
        [⟨[], str "Inbox", str "/Inbox", str "Inbox", str "inbox"⟩]
        [str "Q"] =
      .ok (⟨[], [(str "Q", str "permission denied")]⟩,
        [(str "inbox", ⟨[], str "Inbox", str "/Inbox", str "Inbox", str "inbox"⟩)]) ∧
    (∀ pe ∈ ([(str "Q", str "permission denied")] : List (Str × Str)),
      hasSubstr (str "already exists") pe.2 = false) := by
  have inb : findInboxFolder
      [⟨[], str "Inbox", str "/Inbox", str "Inbox", str "inbox"⟩] =
      some ⟨[], str "Inbox", str "/Inbox", str "Inbox", str "inbox"⟩ := by decide
  refine ⟨?_, ?_, ?_⟩
  · rw [creation_error_handling.1 (fun _ _ => .error (str "the folder already exists"))
      [⟨[], str "Inbox", str "/Inbox", str "Inbox", str "inbox"⟩] [str "Q"] _ inb]
    decide
  · rw [creation_error_handling.1 (fun _ _ => .error (str "permission denied"))
      [⟨[], str "Inbox", str "/Inbox", str "Inbox", str "inbox"⟩] [str "Q"] _ inb]
    decide
  · exact creation_error_handling.2.2
      (fun _ _ => .error (str "permission denied"))
      [⟨[], str "Inbox", str "/Inbox", str "Inbox", str "inbox"⟩]
      [str "Q"] ⟨[], [(str "Q", str "permission denied")]⟩
      [(str "inbox", ⟨[], str "Inbox", str "/Inbox", str "Inbox", str "inbox"⟩)]
      (by decide)

-- ===========================================================================
-- Split / join / lower-casing toolkit for the creation-order invariant
-- ===========================================================================

theorem consHead_append (c : Char) (l l2 : List Str) (h : l ≠ []) :
    consHead c (l ++ l2) = consHead c l ++ l2 := by
  cases l with
  | nil => exact absurd rfl h
  | cons p ps => simp [consHead]

theorem joinSep_cons (sep : Char) (s : Str) (ss : List Str) (h : ss ≠ []) :
    joinSep sep (s :: ss) = s ++ sep :: joinSep sep ss := by
  cases ss with
  | nil => exact absurd rfl h
  | cons t ts => rfl

theorem joinSep_consHead (sep c : Char) (l : List Str) (h : l ≠ []) :
    joinSep sep (consHead c l) = c :: joinSep sep l := by
  cases l with
  | nil => exact absurd rfl h
  | cons p ps =>
    cases ps with
    | nil => rfl
    | cons q qs =>
      simp only [consHead]
      rw [joinSep_cons sep (c :: p) (q :: qs) (by simp),
        joinSep_cons sep p (q :: qs) (by simp)]
      simp

theorem joinSep_splitOnChar (sep : Char) (s : Str) :
    joinSep sep (splitOnChar sep s) = s := by
  induction s with
  | nil => rfl
  | cons c cs ih =>
    simp only [splitOnChar]
    split
    · rename_i h
      rw [joinSep_cons _ _ _ (splitOnChar_ne_nil _ _), ih, h]
      rfl
    · rw [joinSep_consHead _ _ _ (splitOnChar_ne_nil _ _), ih]

theorem mem_splitOnChar_not_sep (sep : Char) (s p : Str)
    (h : p ∈ splitOnChar sep s) : sep ∉ p := by
  induction s generalizing p with
  | nil =>
    simp only [splitOnChar, List.mem_singleton] at h
    subst h
    simp
  | cons c cs ih =>
    simp only [splitOnChar] at h
    split at h
    · rcases List.mem_cons.mp h with rfl | h2
      · simp
      · exact ih p h2
    · rename_i hc
      cases hsp : splitOnChar sep cs with
      | nil => exact absurd hsp (splitOnChar_ne_nil sep cs)
      | cons q qs =>
        rw [hsp] at h
        simp only [consHead] at h
        rcases List.mem_cons.mp h with rfl | h2
        · intro hmem
          rcases List.mem_cons.mp hmem with rfl | h3
          · exact hc rfl
          · exact ih q (hsp ▸ List.mem_cons_self q qs) h3
        · exact ih p (hsp ▸ List.mem_cons_of_mem q h2)

theorem splitOnChar_append_last (sep : Char) (a b : Str) (h : sep ∉ b) :
    splitOnChar sep (a ++ sep :: b) = splitOnChar sep a ++ [b] := by
  induction a with
  | nil =>
    simp only [List.nil_append, splitOnChar, if_pos rfl,
      splitOnChar_of_not_mem sep b h]
    rfl
  | cons c cs ih =>
    by_cases hc : c = sep
    · subst hc
      simp only [List.cons_append, splitOnChar, if_pos rfl]
      rw [List.append_eq, ih]
      rfl
    · simp only [List.cons_append, splitOnChar, if_neg hc]
      rw [List.append_eq, ih,
        consHead_append c (splitOnChar sep cs) [b] (splitOnChar_ne_nil sep cs)]

/-- Depth of a path with one separator appended: at least two segments. -/
theorem pathDepth_no_slash (p : Str) (h : '/' ∉ p) : pathDepth p = 1 := by
  unfold pathDepth
  rw [splitOnChar_of_not_mem _ _ h]
  rfl

theorem two_le_pathDepth_child (pk ln : Str) (h : '/' ∉ ln) :
    2 ≤ pathDepth (pk ++ '/' :: ln) := by
  unfold pathDepth
  rw [splitOnChar_append_last _ _ _ h, List.length_append]
  have := splitOnChar_ne_nil '/' pk
  have hlen : 0 < (splitOnChar '/' pk).length := List.length_pos.mpr this
  simp
  omega

/-- The lower-cased parent prefix of a map key (all segments but the last). -/
def parentKeyOf (k : Str) : Str := joinSep '/' ((splitOnChar '/' k).dropLast)

theorem parentKeyOf_child (pk ln : Str) (h : '/' ∉ ln) :
    parentKeyOf (pk ++ '/' :: ln) = pk := by
  unfold parentKeyOf
  rw [splitOnChar_append_last _ _ _ h, List.dropLast_concat, joinSep_splitOnChar]

theorem charToNat_ofNat {n : Nat} (h : n.isValidChar) :
    (Char.ofNat n).toNat = n := by
  rw [Char.ofNat, dif_pos h]
  rfl

theorem jsLowerChar_eq_slash (c : Char) (h : jsLowerChar c = '/') : c = '/' := by
  unfold jsLowerChar at h
  split at h
  · rename_i hc
    exfalso
    have h65 : 65 ≤ c.toNat := by
      have := hc.1
      rw [Char.le_def] at this
      exact this
    have h90 : c.toNat ≤ 90 := by
      have := hc.2
      rw [Char.le_def] at this
      exact this
    have hv : (c.toNat + 32).isValidChar := Or.inl (by omega)
    have := congrArg Char.toNat h
    rw [charToNat_ofNat hv] at this
    have h47 : Char.toNat '/' = 47 := by decide
    omega
  · exact h

theorem jsLower_append (a b : Str) :
    jsLower (a ++ b) = jsLower a ++ jsLower b := List.map_append _ _ _

theorem slash_not_mem_jsLower (s : Str) (h : '/' ∉ s) : '/' ∉ jsLower s := by
  intro hmem
  rcases List.mem_map.mp hmem with ⟨c, hc, hlc⟩
  exact h (jsLowerChar_eq_slash c hlc ▸ hc)

theorem jsLower_slash_cons (s : Str) :
    jsLower ('/' :: s) = '/' :: jsLower s := by
  simp only [jsLower, List.map_cons]
  congr 1

theorem dropSlash_of_not_mem (s : Str) (h : '/' ∉ s) :
    dropLeadingSlashes s = s := by
  cases s with
  | nil => rfl
  | cons c cs =>
    have hc : ¬ (c = '/') := fun hh => h (hh ▸ List.mem_cons_self c cs)
    simp [dropLeadingSlashes, List.dropWhile_cons, hc]

theorem dropSlash_cons_slash (s : Str) :
    dropLeadingSlashes ('/' :: s) = dropLeadingSlashes s := by
  simp [dropLeadingSlashes, List.dropWhile_cons]

theorem dropSlash_append_of_ne_nil (a b : Str) (h : dropLeadingSlashes a ≠ []) :
    dropLeadingSlashes (a ++ b) = dropLeadingSlashes a ++ b := by
  induction a with
  | nil => exact absurd rfl h
  | cons c cs ih =>
    by_cases hc : c = '/'
    · subst hc
      rw [List.cons_append, dropSlash_cons_slash, dropSlash_cons_slash] at *
      exact ih h
    · simp [dropLeadingSlashes, List.dropWhile_cons, hc]

theorem dropSlash_append_of_nil (a b : Str) (h : dropLeadingSlashes a = []) :
    dropLeadingSlashes (a ++ b) = dropLeadingSlashes b := by
  induction a with
  | nil => rfl
  | cons c cs ih =>
    by_cases hc : c = '/'
    · subst hc
      rw [dropSlash_cons_slash] at h
      rw [List.cons_append, dropSlash_cons_slash]
      exact ih h
    · exfalso
      simp [dropLeadingSlashes, List.dropWhile_cons, hc] at h

-- ===========================================================================
-- C1: creation order (invariant machinery)
-- ===========================================================================

theorem mapSet_keys_has (m : FolderMap) (k : Str) (v : Folder)
    (h : mapHas m k = true) :
    (mapSet m k v).map (·.1) = m.map (·.1) := by
  unfold mapSet
  rw [if_pos h, List.map_map]
  apply List.map_congr_left
  intro kv _
  by_cases hk : kv.1 = k
  · simp [hk]
  · simp [hk]

theorem mapSet_keys_not_has (m : FolderMap) (k : Str) (v : Folder)
    (h : mapHas m k = false) :
    (mapSet m k v).map (·.1) = m.map (·.1) ++ [k] := by
  unfold mapSet
  rw [if_neg (by simp [h])]
  simp

theorem mem_mapSet (m : FolderMap) (k : Str) (v : Folder) (kv : Str × Folder)
    (h : kv ∈ mapSet m k v) : kv ∈ m ∨ kv = (k, v) := by
  unfold mapSet at h
  split at h
  · rcases List.mem_map.mp h with ⟨kv0, hkv0, heq⟩
    by_cases hk : kv0.1 = k
    · right
      rw [← heq]
      simp [hk]
    · left
      rw [← heq]
      simp only [if_neg hk]
      exact hkv0
  · rcases List.mem_append.mp h with h1 | h2
    · exact Or.inl h1
    · exact Or.inr (List.mem_singleton.mp h2)

/-- Every key created at depth two or more has its parent key strictly
earlier in the index (key list in insertion order). -/
def parentsBefore (ks : List Str) : Prop :=
  ∀ i : Nat, i < ks.length → 2 ≤ pathDepth (ks.getD i []) →
    parentKeyOf (ks.getD i []) ∈ ks.take i

theorem parentsBefore_snoc (ks : List Str) (k : Str) (h : parentsBefore ks)
    (hk : 2 ≤ pathDepth k → parentKeyOf k ∈ ks) :
    parentsBefore (ks ++ [k]) := by
  intro i hi hd
  rw [List.length_append, List.length_singleton] at hi
  by_cases hlt : i < ks.length
  · rw [List.getD_append ks [k] [] i hlt] at hd ⊢
    rw [List.take_append_of_le_length (le_of_lt hlt)]
    exact h i hlt hd
  · have hieq : i = ks.length := by omega
    subst hieq
    have hgd : (ks ++ [k]).getD ks.length [] = k := by
      rw [List.getD_append_right ks [k] [] ks.length (le_refl _)]
      simp
    rw [hgd] at hd ⊢
    rw [List.take_left]
    exact hk hd

/-- The well-behaved host used to exhibit the creation-order guarantee: the
created folder's path (and id) is the parent id with `/name` appended, which
is how the mail client reports a folder created under its parent. -/
def canonHost : Host := fun parentId name =>
  .ok ⟨parentId ++ '/' :: name, name, parentId ++ '/' :: name, [], []⟩

/-- The inbox-equivalent root of the scenario: an otherwise empty tree. -/
def inboxCanon : Folder :=
  ⟨[], str "Inbox", str "/Inbox", str "Inbox", str "inbox"⟩

/-- The per-entry invariant of the folder index during a `canonHost` run: the
key is the lower-cased clean path, and the clean path is the id with the
leading slashes stripped (or the entry is the inbox root, whose id is the
empty handle). -/
def goodEntry (kv : Str × Folder) : Prop :=
  kv.1 = jsLower kv.2.cleanPath ∧
    (kv.2.cleanPath = dropLeadingSlashes kv.2.id ∨ kv.2.id = [])

/-- The folder-index invariant: every entry is good and every key's parent
key precedes it. -/
def MapInv (fm : FolderMap) : Prop :=
  (∀ kv ∈ fm, goodEntry kv) ∧ parentsBefore (fm.map (·.1))

theorem createAndCache_canon (fm : FolderMap) (parentId name : Str)
    (hname : '/' ∉ name)
    (hpid : parentId = [] ∨ ∃ kv ∈ fm, kv.2.id = parentId ∧ goodEntry kv)
    (hinv : MapInv fm) :
    MapInv (createAndCache canonHost fm parentId name).1 ∧
    (createAndCache canonHost fm parentId name).2 = none := by
  have hunfold : createAndCache canonHost fm parentId name =
      (mapSet fm (jsLower (dropLeadingSlashes (parentId ++ '/' :: name)))
        ⟨parentId ++ '/' :: name, name, parentId ++ '/' :: name,
          dropLeadingSlashes (parentId ++ '/' :: name), []⟩, none) := rfl
  rw [hunfold]
  refine ⟨⟨?_, ?_⟩, rfl⟩
  · -- every entry of the updated map is good
    intro kv hkv
    rcases mem_mapSet _ _ _ _ hkv with hold | hnew
    · exact hinv.1 kv hold
    · subst hnew
      exact ⟨rfl, Or.inl rfl⟩
  · -- parent keys still precede their children
    set k := jsLower (dropLeadingSlashes (parentId ++ '/' :: name)) with hk
    by_cases hhas : mapHas fm k
    · rw [mapSet_keys_has fm k _ hhas]
      exact hinv.2
    · rw [mapSet_keys_not_has fm k _ (by simpa using hhas)]
      refine parentsBefore_snoc _ _ hinv.2 ?_
      intro hdepth
      by_cases hdp : dropLeadingSlashes parentId = []
      · -- the new key has a single segment: depth 2 is impossible
        exfalso
        have hclean : dropLeadingSlashes (parentId ++ '/' :: name) = name := by
          rw [dropSlash_append_of_nil _ _ hdp, dropSlash_cons_slash,
            dropSlash_of_not_mem _ hname]
        rw [hk, hclean] at hdepth
        have := pathDepth_no_slash (jsLower name) (slash_not_mem_jsLower name hname)
        omega
      · -- the new key is parent-key ++ '/' ++ name
        have hclean : dropLeadingSlashes (parentId ++ '/' :: name) =
            dropLeadingSlashes parentId ++ '/' :: name :=
          dropSlash_append_of_ne_nil _ _ hdp
        have hkey : k = jsLower (dropLeadingSlashes parentId) ++
            '/' :: jsLower name := by
          rw [hk, hclean, jsLower_append, jsLower_slash_cons]
        have hparent : parentKeyOf k = jsLower (dropLeadingSlashes parentId) := by
          rw [hkey]
          exact parentKeyOf_child _ _ (slash_not_mem_jsLower name hname)
        rw [hparent]
        -- the parent entry's key is exactly this string
        rcases hpid with rfl | ⟨kv, hkvmem, hkvid, hkvgood⟩
        · exact absurd rfl hdp
        · rcases hkvgood.2 with hcleanid | hidnil
          · have : kv.1 = jsLower (dropLeadingSlashes parentId) := by
              rw [hkvgood.1, hcleanid, hkvid]
            rw [← this]
            exact List.mem_map.mpr ⟨kv, hkvmem, rfl⟩
          · rw [hidnil] at hkvid
            rw [← hkvid] at hdp
            exact absurd rfl hdp

theorem processSegsFrom_inv (inbox : Folder) (hinbox : inbox.id = [])
    (parts : List Str) (hparts : ∀ q ∈ parts, '/' ∉ q) :
    ∀ (rem j : Nat) (fm : FolderMap), MapInv fm →
      MapInv (processSegsFrom canonHost inbox parts j rem fm).1 := by
  intro rem
  induction rem with
  | zero =>
    intro j fm hinv
    simpa [processSegsFrom] using hinv
  | succ rem ih =>
    intro j fm hinv
    simp only [processSegsFrom]
    split
    · exact ih (j + 1) fm hinv
    · cases hgp : getParentId fm inbox parts j with
      | error e => simpa using hinv
      | ok parentId =>
        have hname : '/' ∉ parts.getD j [] := by
          by_cases hj : j < parts.length
          · rw [List.getD_eq_getElem parts [] hj]
            exact hparts _ (List.getElem_mem hj)
          · rw [List.getD_eq_default _ _ (by omega)]
            simp
        have hpid : parentId = [] ∨
            ∃ kv ∈ fm, kv.2.id = parentId ∧ goodEntry kv := by
          unfold getParentId at hgp
          split at hgp
          · left
            injection hgp with h2
            rw [← h2, hinbox]
          · split at hgp
            · exact absurd hgp (by simp)
            · rename_i f hfind
              injection hgp with h2
              right
              unfold mapGet at hfind
              cases hf2 : List.find? (fun kv => decide (kv.1 =
                  jsLower (joinSep '/' (parts.take j)))) fm with
              | none =>
                rw [hf2] at hfind
                exact absurd hfind (by simp)
              | some kv0 =>
                rw [hf2] at hfind
                simp at hfind
                refine ⟨kv0, List.mem_of_find?_eq_some hf2, ?_, hinv.1 kv0
                  (List.mem_of_find?_eq_some hf2)⟩
                rw [hfind, h2]
        have hcc := createAndCache_canon fm parentId (parts.getD j [])
          hname hpid hinv
        dsimp only
        cases hccm : createAndCache canonHost fm parentId (parts.getD j []) with
        | mk fm2 err =>
          cases err with
          | none =>
            dsimp only
            have hfm2 : MapInv fm2 := by
              rw [hccm] at hcc
              exact hcc.1
            exact ih (j + 1) fm2 hfm2
          | some e =>
            rw [hccm] at hcc
            exact absurd hcc.2 (by simp)

theorem processPath_inv (inbox : Folder) (hinbox : inbox.id = [])
    (fm : FolderMap) (path : Str) (hinv : MapInv fm) :
    MapInv (processPath canonHost inbox fm path).1 := by
  unfold processPath
  exact processSegsFrom_inv inbox hinbox (splitOnChar '/' path)
    (fun q hq => mem_splitOnChar_not_sep '/' path q hq) _ 0 fm hinv

theorem createLoop_inv (inbox : Folder) (hinbox : inbox.id = []) :
    ∀ (ps : List Str) (fm : FolderMap) (r : CreateResults), MapInv fm →
      MapInv (createLoop canonHost inbox ps fm r).2 := by
  intro ps
  induction ps with
  | nil =>
    intro fm r hinv
    simpa [createLoop] using hinv
  | cons p ps ih =>
    intro fm r hinv
    simp only [createLoop]
    cases hpp : processPath canonHost inbox fm p with
    | mk fm2 err =>
      have hfm2 : MapInv fm2 := by
        have := processPath_inv inbox hinbox fm p hinv
        rw [hpp] at this
        exact this
      cases err with
      | none => exact ih fm2 _ hfm2
      | some e => exact ih fm2 _ hfm2

/-- **C1.** The creation batch sorts target paths by depth ascending with ties
keeping their original relative order (permutation + sortedness + stability of
`sortPathsByDepth`), and walks each path's segments left to right so that, in
any completed run over the well-behaved host, every folder key of depth ≥ 2
has its parent key strictly earlier in the folder index; in particular, for
target paths `["A/B/C", "A/B", "X"]` over a tree holding only the inbox root,
the run succeeds, all of `A`, `A/B`, `A/B/C`, `X` are present in the final
index, and `A` was inserted before `A/B`, which was inserted before `A/B/C`. -/
theorem creation_order_spec :
    (∀ paths : List Str, (sortPathsByDepth paths).Perm paths) ∧
    (∀ paths : List Str,
      (sortPathsByDepth paths).Pairwise (fun a b => pathDepth a ≤ pathDepth b)) ∧
    (∀ (paths : List Str) (d : Nat),
      (sortPathsByDepth paths).filter (fun p => pathDepth p = d) =
        paths.filter (fun p => pathDepth p = d)) ∧
    (∀ (paths : List Str) (r : CreateResults) (fm : FolderMap),
      createFolders canonHost [inboxCanon] paths = .ok (r, fm) →
      parentsBefore (fm.map (·.1))) ∧
    (createFolders canonHost [inboxCanon] [str "A/B/C", str "A/B", str "X"] =
      .ok (⟨[str "X", str "A/B", str "A/B/C"], []⟩,
        [(str "inbox", inboxCanon),
         (str "x", ⟨str "/X", str "X", str "/X", str "X", []⟩),
         (str "a", ⟨str "/A", str "A", str "/A", str "A", []⟩),
         (str "a/b", ⟨str "/A/B", str "B", str "/A/B", str "A/B", []⟩),
         (str "a/b/c", ⟨str "/A/B/C", str "C", str "/A/B/C", str "A/B/C", []⟩)])) := by
  refine ⟨sortPathsByDepth_perm, sortPathsByDepth_sorted, sortPathsByDepth_stable,
    ?_, by decide⟩
  intro paths r fm h
  unfold createFolders at h
  cases hfi : findInboxFolder [inboxCanon] with
  | none =>
    rw [hfi] at h
    exact absurd h (by simp)
  | some inbox =>
    rw [hfi] at h
    simp only [Except.ok.injEq] at h
    have hfic : findInboxFolder [inboxCanon] = some inboxCanon := by decide
    rw [hfic] at hfi
    have hib : inbox.id = [] := by
      injection hfi with h2
      rw [← h2]
      rfl
    have hinit : mapOfPairs
        (([inboxCanon] : List Folder).map fun f => (jsLower f.cleanPath, f)) =
        [(str "inbox", inboxCanon)] := by decide
    have hinv0 : MapInv [(str "inbox", inboxCanon)] := by
      constructor
      · intro kv hkv
        rw [List.mem_singleton] at hkv
        subst hkv
        exact ⟨by decide, Or.inr rfl⟩
      · intro i hi hd
        exfalso
        have hi0 : i = 0 := by
          simpa using hi
        subst hi0
        have h1 : pathDepth (([(str "inbox", inboxCanon)].map
            (fun kv => kv.1)).getD 0 []) = 1 := by decide
        omega
    have hloop := createLoop_inv inbox hib (sortPathsByDepth paths)
      (mapOfPairs (([inboxCanon] : List Folder).map
        fun f => (jsLower f.cleanPath, f))) ⟨[], []⟩ (hinit ▸ hinv0)
    have hfm : (createLoop canonHost inbox (sortPathsByDepth paths)
        (mapOfPairs (([inboxCanon] : List Folder).map
          fun f => (jsLower f.cleanPath, f))) ⟨[], []⟩).2 = fm := by
      rw [h]
    rw [hfm] at hloop
    exact hloop.2

/-- Witness for `creation_order_spec`: a one-path run whose final index obeys
the parent-before-child key order. -/
theorem creation_order_spec_witness :
    parentsBefore [str "inbox", str "a", str "a/b"] := by
  have happ := creation_order_spec.2.2.2.1 [str "A/B"]
    ⟨[str "A/B"], []⟩
    [(str "inbox", inboxCanon),
     (str "a", ⟨str "/A", str "A", str "/A", str "A", []⟩),
     (str "a/b", ⟨str "/A/B", str "B", str "/A/B", str "A/B", []⟩)]
    (by decide)
  simpa using happ

-- ===========================================================================
-- SenderDiscovery: `extractEmail` / `getSenders`  (ext/modules/MailClient.js)
-- ===========================================================================

/-- A message as consumed by `getSenders` (only the author field is read). -/
structure Message where
  author : Str
deriving DecidableEq

/-- An account identity as consumed by `getSenders` (only the email is read). -/
structure Identity where
  email : Str
deriving DecidableEq

/-- The capture of `author.match(/<([^>]+)>/)`: the contents of the first
angle-bracket pair holding at least one non-`>` character.  The regex scans
start positions left to right; at a `<` the greedy `[^>]+` run must be
non-empty and be followed by `>`. -/
def angleCapture : Str → Option Str
  | [] => none
  | c :: cs =>
    if c = '<' then
      if (cs.takeWhile (· ≠ '>')).length = 0 ∨
          ¬ (cs.takeWhile (· ≠ '>')).length < cs.length then
        angleCapture cs
      else some (cs.takeWhile (· ≠ '>'))
    else angleCapture cs

/-- `.replace(/["']/g, '')`: remove every double and single quote. -/
def stripQuotes (s : Str) : Str :=
  s.filter (fun c => ¬ (c = '"' ∨ c = (Char.ofNat 39)))

/-- `extractEmail(author)`: `null` for a missing/empty author; prefer the
angle-bracket capture, else the whole author field; strip quotes, trim,
lower-case; `null` unless the result contains an `@`. -/
def extractEmail (author : Str) : Option Str :=
  if author = [] then none
  else
    let base := match angleCapture author with
      | some cap => cap
      | none => author
    let email := jsLower (jsTrim (stripQuotes base))
    if email.contains '@' then some email else none

/-- First-seen-order insertion into a JavaScript `Set` modelled as a list. -/
def insertSet (l : List Str) (x : Str) : List Str :=
  if listHas l x then l else l ++ [x]

/-- `getSenders(folderId, limit, selfIdentities)`, with the host's message
list abstracted as the `msgs` argument: consider the first
`limit || 500` messages, extract each author's address, drop null results and
the caller's own (lower-cased) identity emails, and collect the rest into a
`Set` (deduplicated, first-seen order). -/
def getSenders (msgs : List Message) (limit : Nat) (idents : List Identity) :
    List Str :=
  let list := msgs.take (if limit = 0 then 500 else limit)
  let selfEmails := idents.map (fun i => jsLower i.email)
  list.foldl (fun senders m =>
    match extractEmail m.author with
    | none => senders
    | some e => if listHas selfEmails e then senders else insertSet senders e) []

/-- The claim's wording of the extraction heuristic, as one pipeline: prefer
the angle-bracket-delimited address when present (else the whole author
field), strip quote characters, trim, lower-case, and keep the result only if
it contains at least one `@`. -/
def extractEmailSpec (author : Str) : Option Str :=
  let base := (angleCapture author).getD author
  let email := jsLower (jsTrim (stripQuotes base))
  if countChar '@' email ≥ 1 then some email else none

/-- The claim's wording of `getSenders`, as one pipeline: the first
`limit || 500` messages, mapped through the extraction heuristic, minus the
caller's own identity emails (case-insensitively), deduplicated keeping the
first occurrence of each address. -/
def getSendersSpec (msgs : List Message) (limit : Nat)
    (idents : List Identity) : List Str :=
  let list := msgs.take (if limit = 0 then 500 else limit)
  let selfEmails := idents.map (fun i => jsLower i.email)
  ((list.filterMap (fun m => extractEmailSpec m.author)).filter
    (fun e => ¬ listHas selfEmails e)).foldl insertSet []

theorem contains_iff_countChar (s : Str) (c : Char) :
    s.contains c = true ↔ 1 ≤ countChar c s := by
  induction s with
  | nil => simp [countChar]
  | cons b bs ih =>
    by_cases hb : b = c
    · subst hb
      simp [countChar, List.contains_cons]
    · have ih2 : c ∈ bs ↔ 1 ≤ countChar c bs := by
        rw [← ih]
        simp
      simp [countChar, hb, List.contains_cons, Ne.symm hb, ih2]

theorem extractEmailSpec_eq (author : Str) :
    extractEmailSpec author = extractEmail author := by
  unfold extractEmailSpec extractEmail
  by_cases hemp : author = []
  · subst hemp
    simp [angleCapture, stripQuotes, jsTrim, jsLower, countChar]
  · rw [if_neg hemp]
    have hbase : (angleCapture author).getD author =
        (match angleCapture author with
          | some cap => cap
          | none => author) := by
      cases angleCapture author <;> rfl
    rw [hbase]
    by_cases hat : (jsLower (jsTrim (stripQuotes (match angleCapture author with
        | some cap => cap
        | none => author)))).contains '@' = true
    · rw [if_pos hat, if_pos ((contains_iff_countChar _ _).mp hat)]
    · rw [if_neg hat, if_neg ?_]
      intro hc
      exact hat ((contains_iff_countChar _ _).mpr hc)

theorem getSenders_foldl_eq (selfEmails : List Str) :
    ∀ (list : List Message) (acc : List Str),
      list.foldl (fun senders m =>
        match extractEmail m.author with
        | none => senders
        | some e =>
          if listHas selfEmails e then senders else insertSet senders e) acc =
      ((list.filterMap (fun m => extractEmail m.author)).filter
        (fun e => ¬ listHas selfEmails e)).foldl insertSet acc := by
  intro list
  induction list with
  | nil => intro acc; rfl
  | cons m ms ih =>
    intro acc
    rw [List.foldl_cons, List.filterMap_cons]
    cases hx : extractEmail m.author with
    | none => exact ih acc
    | some e =>
      by_cases hself : listHas selfEmails e
      · simp only [List.filter_cons, hself]
        simpa using ih acc
      · have hself2 : (¬ listHas selfEmails e : Bool) = true := by
          simp [hself]
        simp only [List.filter_cons, hself2, if_pos rfl, List.foldl_cons]
        simp only [hself]
        rw [if_neg (by simp [hself])]
        exact ih (insertSet acc e)

/-- **C7 (amended).** `getSenders` extracts each considered message author's
address by preferring an angle-bracket-delimited address when present (else
the whole author field), strips quote characters, trims and lower-cases it,
discards any result without at least one `@`, discards any result equal
(case-insensitively) to one of the caller's identity emails, and returns the
remaining addresses deduplicated in first-seen order, considering at most
`limit` messages (a zero `limit` falls back to the default of 500): the
embedded loop equals the claim-worded pipeline. -/
theorem getSenders_spec :
    (∀ author : Str, extractEmailSpec author = extractEmail author) ∧
    (∀ (msgs : List Message) (limit : Nat) (idents : List Identity),
      getSenders msgs limit idents = getSendersSpec msgs limit idents) := by
  refine ⟨extractEmailSpec_eq, ?_⟩
  intro msgs limit idents
  unfold getSenders getSendersSpec
  simp only [extractEmailSpec_eq]
  exact getSenders_foldl_eq (idents.map fun i => jsLower i.email)
    (msgs.take (if limit = 0 then 500 else limit)) []

/-- **C7 counterexample.** The code keeps an address with two `@` (it only
requires at least one), and a zero limit falls back to the default rather
than considering no messages, contradicting the claim as stated. -/
theorem getSenders_counterexample :
    getSenders [⟨str "a@@b"⟩] 1 [] = [str "a@@b"] ∧
    countChar '@' (str "a@@b") = 2 ∧
    getSenders [⟨str "x@y"⟩] 0 [] = [str "x@y"] := by
  refine ⟨by decide, by decide, by decide⟩

-- ===========================================================================
-- PathCodec: percent encoding (`encodeURIComponent` / `decodeURIComponent`)
-- ===========================================================================

/-- The characters `encodeURIComponent` leaves unescaped:
`A-Z a-z 0-9 - _ . ! ~ * ' ( )`. -/
def isUnreservedURI (c : Char) : Bool :=
  ('A' ≤ c ∧ c ≤ 'Z') || ('a' ≤ c ∧ c ≤ 'z') || ('0' ≤ c ∧ c ≤ '9') ||
  c = '-' || c = '_' || c = '.' || c = '!' || c = '~' || c = '*' ||
  c = (Char.ofNat 39) || c = '(' || c = ')'

/-- Upper-case hexadecimal digit of a value below 16 (as emitted by
`encodeURIComponent`). -/
def hexDigit (n : Nat) : Char :=
  if n < 10 then Char.ofNat (48 + n) else Char.ofNat (55 + n)

/-- The numeric value of a hexadecimal digit character (either case), as
accepted by `decodeURIComponent`. -/
def hexVal (c : Char) : Option Nat :=
  if '0' ≤ c ∧ c ≤ '9' then some (c.toNat - 48)
  else if 'A' ≤ c ∧ c ≤ 'F' then some (c.toNat - 55)
  else if 'a' ≤ c ∧ c ≤ 'f' then some (c.toNat - 87)
  else none

/-- A percent-escaped byte, e.g. `%20`. -/
def pctByte (b : Nat) : Str := ['%', hexDigit (b / 16), hexDigit (b % 16)]

/-- The UTF-8 bytes of a Unicode scalar value. -/
def utf8Bytes (n : Nat) : List Nat :=
  if n < 128 then [n]
  else if n < 2048 then [192 + n / 64, 128 + n % 64]
  else if n < 65536 then
    [224 + n / 4096, 128 + n / 64 % 64, 128 + n % 64]
  else
    [240 + n / 262144, 128 + n / 4096 % 64, 128 + n / 64 % 64, 128 + n % 64]

/-- `encodeURIComponent` on one character: unreserved characters pass through,
everything else becomes the percent-escaped UTF-8 bytes. -/
def encodeChar (c : Char) : Str :=
  if isUnreservedURI c then [c]
  else (utf8Bytes c.toNat).foldr (fun b acc => pctByte b ++ acc) []

/-- `encodeURIComponent`. -/
def encodeURIComponent (s : Str) : Str :=
  s.foldr (fun c acc => encodeChar c ++ acc) []

/-- Read one percent-escaped continuation byte in `[lo, hi]`
(the strict UTF-8 continuation check of `decodeURIComponent`). -/
def readContByte (lo hi : Nat) : Str → Option (Nat × Str)
  | c :: h1 :: h2 :: r =>
    if c = '%' then
      match hexVal h1, hexVal h2 with
      | some a, some b =>
        if lo ≤ 16 * a + b ∧ 16 * a + b ≤ hi then some (16 * a + b, r)
        else none
      | _, _ => none
    else none
  | _ => none

/-- Decode one percent-escape sequence given its already-decoded lead byte:
an ASCII byte stands alone; a lead byte `0xC2..0xF4` must be followed by the
exact well-formed UTF-8 continuation escapes (strict ranges, so overlong
forms, surrogates and values above `0x10FFFF` are rejected, as
`decodeURIComponent` does). -/
def decodeEscape (b1 : Nat) (r1 : Str) : Option (Char × Str) :=
  if b1 < 128 then some (Char.ofNat b1, r1)
  else if 194 ≤ b1 ∧ b1 ≤ 223 then
    (readContByte 128 191 r1).bind (fun p =>
      some (Char.ofNat ((b1 - 192) * 64 + (p.1 - 128)), p.2))
  else if 224 ≤ b1 ∧ b1 ≤ 239 then
    (readContByte (if b1 = 224 then 160 else 128)
        (if b1 = 237 then 159 else 191) r1).bind (fun p =>
      (readContByte 128 191 p.2).bind (fun q =>
        some (Char.ofNat
          ((b1 - 224) * 4096 + (p.1 - 128) * 64 + (q.1 - 128)), q.2)))
  else if 240 ≤ b1 ∧ b1 ≤ 244 then
    (readContByte (if b1 = 240 then 144 else 128)
        (if b1 = 244 then 143 else 191) r1).bind (fun p =>
      (readContByte 128 191 p.2).bind (fun q =>
        (readContByte 128 191 q.2).bind (fun w =>
          some (Char.ofNat ((b1 - 240) * 262144 + (p.1 - 128) * 4096 +
            (q.1 - 128) * 64 + (w.1 - 128)), w.2))))
  else none

/-- Decode one code point of a percent-encoded string: a plain character
passes through; a `%` escape must be two hex digits and is handed to
`decodeEscape` (`decodeURIComponent` throws a `URIError` on any failure,
modelled as `none`). -/
def decodeOne : Str → Option (Char × Str)
  | [] => none
  | c :: cs =>
    if c = '%' then
      match cs with
      | h1 :: h2 :: r1 =>
        match hexVal h1, hexVal h2 with
        | some a, some b => decodeEscape (16 * a + b) r1
        | _, _ => none
      | _ => none
    else some (c, cs)

theorem readContByte_length (lo hi : Nat) (s : Str) (b : Nat) (r : Str)
    (h : readContByte lo hi s = some (b, r)) : r.length + 3 = s.length := by
  unfold readContByte at h
  split at h
  · rename_i c0 h1 h2 r0
    split at h
    · split at h
      · split at h
        · simp only [Option.some.injEq, Prod.mk.injEq] at h
          rw [← h.2]
          simp
        · exact absurd h (by simp)
      · exact absurd h (by simp)
    · exact absurd h (by simp)
  · exact absurd h (by simp)

theorem decodeEscape_length (b1 : Nat) (r1 : Str) (c : Char) (r : Str)
    (h : decodeEscape b1 r1 = some (c, r)) : r.length ≤ r1.length := by
  unfold decodeEscape at h
  split at h
  · simp only [Option.some.injEq, Prod.mk.injEq] at h
    rw [← h.2]
  · split at h
    · rw [Option.bind_eq_some] at h
      obtain ⟨p, hp, h⟩ := h
      simp only [Option.some.injEq, Prod.mk.injEq] at h
      have := readContByte_length _ _ _ _ _ hp
      rw [← h.2]
      omega
    · split at h
      · rw [Option.bind_eq_some] at h
        obtain ⟨p, hp, h⟩ := h
        rw [Option.bind_eq_some] at h
        obtain ⟨q, hq, h⟩ := h
        simp only [Option.some.injEq, Prod.mk.injEq] at h
        have l1 := readContByte_length _ _ _ _ _ hp
        have l2 := readContByte_length _ _ _ _ _ hq
        rw [← h.2]
        omega
      · split at h
        · rw [Option.bind_eq_some] at h
          obtain ⟨p, hp, h⟩ := h
          rw [Option.bind_eq_some] at h
          obtain ⟨q, hq, h⟩ := h
          rw [Option.bind_eq_some] at h
          obtain ⟨w, hw, h⟩ := h
          simp only [Option.some.injEq, Prod.mk.injEq] at h
          have l1 := readContByte_length _ _ _ _ _ hp
          have l2 := readContByte_length _ _ _ _ _ hq
          have l3 := readContByte_length _ _ _ _ _ hw
          rw [← h.2]
          omega
        · exact absurd h (by simp)

theorem decodeOne_length (s : Str) (c : Char) (r : Str)
    (h : decodeOne s = some (c, r)) : r.length < s.length := by
  unfold decodeOne at h
  split at h
  · exact absurd h (by simp)
  · rename_i c0 cs
    split at h
    · split at h
      · rename_i h1 h2 r1
        split at h
        · have := decodeEscape_length _ _ _ _ h
          simp only [List.length_cons]
          omega
        · exact absurd h (by simp)
      · exact absurd h (by simp)
    · simp only [Option.some.injEq, Prod.mk.injEq] at h
      rw [← h.2]
      simp

/-- The recursion of `decodeURIComponent` over the input, with an explicit
iteration counter used purely as a structural termination device (each step
consumes at least one character, so a counter at or above the string length
never runs out; `decodePercentAux_fuel` makes the counter irrelevant). -/
def decodePercentAux : Nat → Str → Option Str
  | _, [] => some []
  | 0, _ :: _ => none
  | fuel + 1, c :: cs =>
    match decodeOne (c :: cs) with
    | none => none
    | some (ch, rest) => (decodePercentAux fuel rest).map (ch :: ·)

/-- `decodeURIComponent` (`none` models the thrown `URIError`). -/
def decodePercent (s : Str) : Option Str := decodePercentAux s.length s

theorem decodePercentAux_fuel :
    ∀ (f1 : Nat) (s : Str) (f2 : Nat), s.length ≤ f1 → s.length ≤ f2 →
      decodePercentAux f1 s = decodePercentAux f2 s := by
  intro f1
  induction f1 with
  | zero =>
    intro s f2 h1 h2
    cases s with
    | nil => cases f2 <;> rfl
    | cons c cs => simp at h1
  | succ f ih =>
    intro s f2 h1 h2
    cases s with
    | nil => cases f2 <;> rfl
    | cons c cs =>
      cases f2 with
      | zero => simp at h2
      | succ f2b =>
        simp only [decodePercentAux]
        cases hd : decodeOne (c :: cs) with
        | none => rfl
        | some p =>
          obtain ⟨ch, rest⟩ := p
          have hlt := decodeOne_length _ _ _ hd
          simp only [List.length_cons] at h1 h2 hlt
          dsimp only
          rw [ih rest f2b (by omega) (by omega)]

theorem decodePercentAux_eq (f : Nat) (s : Str) (h : s.length ≤ f) :
    decodePercentAux f s = decodePercent s :=
  decodePercentAux_fuel f s s.length h (le_refl _)

/-- The characters JavaScript's `.` (no `s` flag) does not match:
line feed, carriage return, line separator, paragraph separator. -/
def dotExcl (c : Char) : Bool :=
  c = '\n' || c = '\r' || c = '\u2028' || c = '\u2029'

/-- One match attempt of `/(?:imap|mailbox):\/\/[^\/]+(?:@[^\/]+)?\/(.+)/` at
the start of `s`.  The authority `[^\/]+(?:@[^\/]+)?` always consumes the whole
maximal slash-free run (the optional `@` group lies inside it, and after any
shorter split the next character is still not `/`), so no backtracking can
produce a different capture; the greedy `(.+)` captures the maximal run of
characters `.` matches, which must be non-empty. -/
def uriMatchAt (s : Str) : Option Str :=
  match
    (if (str "imap://").isPrefixOf s then some (s.drop 7)
     else if (str "mailbox://").isPrefixOf s then some (s.drop 10)
     else none) with
  | none => none
  | some t =>
    if t.takeWhile (· ≠ '/') = [] then none
    else
      match t.drop (t.takeWhile (· ≠ '/')).length with
      | '/' :: tail =>
        if tail.takeWhile (fun c => ¬ dotExcl c) = [] then none
        else some (tail.takeWhile (fun c => ¬ dotExcl c))
      | _ => none

/-- `uri.match(...)`: scan start positions left to right. -/
def uriCapture : Str → Option Str
  | [] => none
  | c :: cs =>
    match uriMatchAt (c :: cs) with
    | some cap => some cap
    | none => uriCapture cs

/-- `RuleEngine.uriToPath`: `null` when the URI matches neither hierarchy
scheme shape, else the percent-decoded captured remainder;
`decodeURIComponent`'s `URIError` propagates. -/
def uriToPath (uri : Str) : Except Str (Option Str) :=
  match uriCapture uri with
  | none => .ok none
  | some cap =>
    match decodePercent cap with
    | none => .error (str "URI malformed")
    | some p => .ok (some p)

/-- `buildFullUri(baseUri, path)`: split the path on `/`, percent-encode each
segment independently, join with `/`, append to the base URI. -/
def buildFullUri (baseUri path : Str) : Str :=
  baseUri ++ '/' :: joinSep '/' ((splitOnChar '/' path).map encodeURIComponent)

theorem hexVal_hexDigit (x : Nat) (h : x < 16) : hexVal (hexDigit x) = some x := by
  interval_cases x <;> decide

theorem readContByte_pct (lo hi b : Nat) (t : Str) (hb : b < 256) :
    readContByte lo hi ('%' :: hexDigit (b / 16) :: hexDigit (b % 16) :: t) =
      if lo ≤ b ∧ b ≤ hi then some (b, t) else none := by
  unfold readContByte
  dsimp only
  rw [if_pos rfl, hexVal_hexDigit (b / 16) (by omega),
    hexVal_hexDigit (b % 16) (by omega)]
  have harith : 16 * (b / 16) + b % 16 = b := by omega
  dsimp only
  rw [harith]

/-- The validity range of a Unicode scalar value, in arithmetic form. -/
theorem char_valid_arith (c : Char) :
    c.toNat < 55296 ∨ (57344 ≤ c.toNat ∧ c.toNat < 1114112) := c.valid

/-- One encoded character decodes back to itself in front of any suffix. -/
theorem decodeOne_encodeChar (c : Char) (rest : Str) :
    decodeOne (encodeChar c ++ rest) = some (c, rest) := by
  by_cases hu : isUnreservedURI c
  · have hne : ¬ (c = '%') := by
      intro hcc
      rw [hcc] at hu
      exact absurd hu (by decide)
    simp only [encodeChar, if_pos hu, List.singleton_append]
    unfold decodeOne
    dsimp only
    rw [if_neg hne]
  · have hval := char_valid_arith c
    simp only [encodeChar, if_neg hu, utf8Bytes]
    by_cases h1 : c.toNat < 128
    · rw [if_pos h1]
      simp only [List.foldr_cons, List.foldr_nil, List.append_nil, pctByte,
        List.cons_append, List.nil_append]
      unfold decodeOne
      dsimp only
      rw [if_pos rfl]
      rw [hexVal_hexDigit (c.toNat / 16) (by omega),
        hexVal_hexDigit (c.toNat % 16) (by omega)]
      dsimp only
      have harith : 16 * (c.toNat / 16) + c.toNat % 16 = c.toNat := by omega
      rw [harith]
      unfold decodeEscape
      rw [if_pos h1, Char.ofNat_toNat]
    · rw [if_neg h1]
      by_cases h2 : c.toNat < 2048
      · rw [if_pos h2]
        simp only [List.foldr_cons, List.foldr_nil, List.append_nil, pctByte,
          List.cons_append, List.append_assoc, List.nil_append]
        unfold decodeOne
        dsimp only
        rw [if_pos rfl]
        rw [hexVal_hexDigit ((192 + c.toNat / 64) / 16) (by omega),
          hexVal_hexDigit ((192 + c.toNat / 64) % 16) (by omega)]
        dsimp only
        have harith : 16 * ((192 + c.toNat / 64) / 16) +
            (192 + c.toNat / 64) % 16 = 192 + c.toNat / 64 := by omega
        rw [harith]
        unfold decodeEscape
        rw [if_neg (by omega), if_pos (by omega)]
        rw [readContByte_pct 128 191 (128 + c.toNat % 64) rest (by omega)]
        rw [if_pos (by omega)]
        simp only [Option.some_bind]
        have harith2 : (192 + c.toNat / 64 - 192) * 64 +
            (128 + c.toNat % 64 - 128) = c.toNat := by omega
        rw [harith2, Char.ofNat_toNat]
      · rw [if_neg h2]
        by_cases h3 : c.toNat < 65536
        · rw [if_pos h3]
          simp only [List.foldr_cons, List.foldr_nil, List.append_nil, pctByte,
            List.cons_append, List.append_assoc, List.nil_append]
          unfold decodeOne
          dsimp only
          rw [if_pos rfl]
          rw [hexVal_hexDigit ((224 + c.toNat / 4096) / 16) (by omega),
            hexVal_hexDigit ((224 + c.toNat / 4096) % 16) (by omega)]
          dsimp only
          have harith : 16 * ((224 + c.toNat / 4096) / 16) +
              (224 + c.toNat / 4096) % 16 = 224 + c.toNat / 4096 := by omega
          rw [harith]
          unfold decodeEscape
          rw [if_neg (by omega), if_neg (by omega), if_pos (by omega)]
          rw [readContByte_pct _ _ (128 + c.toNat / 64 % 64) _ (by omega)]
          rw [if_pos ?hrange]
          case hrange =>
            constructor
            · by_cases h224 : 224 + c.toNat / 4096 = 224 <;>
                simp [h224] <;> omega
            · by_cases h237 : 224 + c.toNat / 4096 = 237 <;>
                simp [h237] <;> omega
          simp only [Option.some_bind]
          rw [readContByte_pct 128 191 (128 + c.toNat % 64) rest (by omega)]
          rw [if_pos (by omega)]
          simp only [Option.some_bind]
          have harith2 : (224 + c.toNat / 4096 - 224) * 4096 +
              (128 + c.toNat / 64 % 64 - 128) * 64 +
              (128 + c.toNat % 64 - 128) = c.toNat := by omega
          rw [harith2, Char.ofNat_toNat]
        · rw [if_neg h3]
          simp only [List.foldr_cons, List.foldr_nil, List.append_nil, pctByte,
            List.cons_append, List.append_assoc, List.nil_append]
          unfold decodeOne
          dsimp only
          rw [if_pos rfl]
          rw [hexVal_hexDigit ((240 + c.toNat / 262144) / 16) (by omega),
            hexVal_hexDigit ((240 + c.toNat / 262144) % 16) (by omega)]
          dsimp only
          have harith : 16 * ((240 + c.toNat / 262144) / 16) +
              (240 + c.toNat / 262144) % 16 = 240 + c.toNat / 262144 := by omega
          rw [harith]
          unfold decodeEscape
          rw [if_neg (by omega), if_neg (by omega), if_neg (by omega),
            if_pos (by omega)]
          rw [readContByte_pct _ _ (128 + c.toNat / 4096 % 64) _ (by omega)]
          rw [if_pos ?hrange4]
          case hrange4 =>
            constructor
            · by_cases h240 : 240 + c.toNat / 262144 = 240 <;>
                simp [h240] <;> omega
            · by_cases h244 : 240 + c.toNat / 262144 = 244 <;>
                simp [h244] <;> omega
          simp only [Option.some_bind]
          rw [readContByte_pct 128 191 (128 + c.toNat / 64 % 64) _ (by omega)]
          rw [if_pos (by omega)]
          simp only [Option.some_bind]
          rw [readContByte_pct 128 191 (128 + c.toNat % 64) rest (by omega)]
          rw [if_pos (by omega)]
          simp only [Option.some_bind]
          have harith2 : (240 + c.toNat / 262144 - 240) * 262144 +
              (128 + c.toNat / 4096 % 64 - 128) * 4096 +
              (128 + c.toNat / 64 % 64 - 128) * 64 +
              (128 + c.toNat % 64 - 128) = c.toNat := by omega
          rw [harith2, Char.ofNat_toNat]

theorem encodeChar_ne_nil (c : Char) : encodeChar c ≠ [] := by
  unfold encodeChar
  split
  · simp
  · unfold utf8Bytes
    split
    · simp [pctByte]
    · split
      · simp [pctByte]
      · split
        · simp [pctByte]
        · simp [pctByte]

theorem decodePercent_cons_of_decodeOne (s : Str) (c : Char) (rest : Str)
    (hs : s ≠ []) (h : decodeOne s = some (c, rest)) :
    decodePercent s = (decodePercent rest).map (c :: ·) := by
  cases s with
  | nil => exact absurd rfl hs
  | cons x xs =>
    show decodePercentAux (xs.length + 1) (x :: xs) = _
    simp only [decodePercentAux]
    rw [h]
    dsimp only
    have hlt := decodeOne_length _ _ _ h
    simp only [List.length_cons] at hlt
    rw [decodePercentAux_eq xs.length rest (by omega)]

theorem decodePercent_encodeChar (c : Char) (rest : Str) :
    decodePercent (encodeChar c ++ rest) = (decodePercent rest).map (c :: ·) :=
  decodePercent_cons_of_decodeOne _ c rest
    (by
      intro hbad
      exact encodeChar_ne_nil c (List.append_eq_nil.mp hbad).1)
    (decodeOne_encodeChar c rest)

theorem decodePercent_plain_cons (c : Char) (rest : Str) (hc : ¬ (c = '%')) :
    decodePercent (c :: rest) = (decodePercent rest).map (c :: ·) := by
  refine decodePercent_cons_of_decodeOne _ c rest (by simp) ?_
  unfold decodeOne
  dsimp only
  rw [if_neg hc]

theorem decodePercent_encodeURIComponent (s rest : Str) :
    decodePercent (encodeURIComponent s ++ rest) =
      (decodePercent rest).map (s ++ ·) := by
  induction s with
  | nil =>
    show decodePercent rest = _
    cases decodePercent rest <;> simp
  | cons c cs ih =>
    have hassoc : encodeURIComponent (c :: cs) ++ rest =
        encodeChar c ++ (encodeURIComponent cs ++ rest) := by
      show (encodeChar c ++ encodeURIComponent cs) ++ rest = _
      rw [List.append_assoc]
    rw [hassoc, decodePercent_encodeChar, ih]
    cases decodePercent rest <;> simp

theorem decodePercent_joined (segs : List Str) (hne : segs ≠ []) :
    decodePercent (joinSep '/' (segs.map encodeURIComponent)) =
      some (joinSep '/' segs) := by
  induction segs with
  | nil => exact absurd rfl hne
  | cons s ss ih =>
    cases ss with
    | nil =>
      show decodePercent (encodeURIComponent s) = some s
      have := decodePercent_encodeURIComponent s []
      rw [List.append_nil] at this
      rw [this]
      show (some ([] : Str)).map (s ++ ·) = _
      simp
    | cons s2 ss2 =>
      rw [List.map_cons, joinSep_cons _ _ _ (by simp),
        joinSep_cons _ _ _ (by simp), decodePercent_encodeURIComponent,
        decodePercent_plain_cons _ _ (by decide), ih (by simp)]
      simp

theorem takeWhile_append_stop (p : Char → Bool) (a : Str) (c : Char) (b : Str)
    (ha : ∀ x ∈ a, p x = true) (hc : p c = false) :
    (a ++ c :: b).takeWhile p = a := by
  induction a with
  | nil => simp [List.takeWhile_cons, hc]
  | cons x xs ih =>
    have hx : p x = true := ha x (List.mem_cons_self x xs)
    simp only [List.cons_append, List.takeWhile_cons, hx, if_true]
    rw [ih (fun y hy => ha y (List.mem_cons_of_mem x hy))]

theorem takeWhile_all (p : Char → Bool) (a : Str) (ha : ∀ x ∈ a, p x = true) :
    a.takeWhile p = a := by
  induction a with
  | nil => rfl
  | cons x xs ih =>
    simp only [List.takeWhile_cons, ha x (List.mem_cons_self x xs), if_true]
    rw [ih (fun y hy => ha y (List.mem_cons_of_mem x hy))]

theorem hexDigit_not_dotExcl (x : Nat) (h : x < 16) :
    dotExcl (hexDigit x) = false := by
  interval_cases x <;> decide

theorem unreserved_not_dotExcl (c : Char) (h : isUnreservedURI c = true) :
    dotExcl c = false := by
  by_contra hbad
  rw [Bool.not_eq_false] at hbad
  have hcases : c = '\n' ∨ c = '\r' ∨ c = '\u2028' ∨ c = '\u2029' := by
    simpa [dotExcl, or_assoc] using hbad
  rcases hcases with rfl | rfl | rfl | rfl <;> exact absurd h (by decide)

theorem utf8Bytes_lt (n : Nat) (hn : n < 1114112) :
    ∀ b ∈ utf8Bytes n, b < 256 := by
  intro b hb
  unfold utf8Bytes at hb
  split at hb
  · simp at hb
    omega
  · split at hb
    · simp at hb
      rcases hb with rfl | rfl <;> omega
    · split at hb
      · simp at hb
        rcases hb with rfl | rfl | rfl <;> omega
      · simp at hb
        rcases hb with rfl | rfl | rfl | rfl <;> omega

theorem mem_pctByte_not_dotExcl (b : Nat) (hb : b < 256) :
    ∀ ch ∈ pctByte b, dotExcl ch = false := by
  intro ch hch
  simp only [pctByte, List.mem_cons, List.not_mem_nil, or_false] at hch
  rcases hch with rfl | rfl | rfl
  · decide
  · exact hexDigit_not_dotExcl _ (by omega)
  · exact hexDigit_not_dotExcl _ (by omega)

theorem mem_foldr_pct (bs : List Nat) (ch : Char)
    (h : ch ∈ bs.foldr (fun b acc => pctByte b ++ acc) []) :
    ∃ b ∈ bs, ch ∈ pctByte b := by
  induction bs with
  | nil => simp at h
  | cons b bs ih =>
    rw [List.foldr_cons] at h
    rcases List.mem_append.mp h with h1 | h1
    · exact ⟨b, List.mem_cons_self b bs, h1⟩
    · obtain ⟨b2, hb2, hc2⟩ := ih h1
      exact ⟨b2, List.mem_cons_of_mem b hb2, hc2⟩

theorem mem_encodeChar_not_dotExcl (c : Char) :
    ∀ ch ∈ encodeChar c, dotExcl ch = false := by
  intro ch hch
  unfold encodeChar at hch
  split at hch
  · rename_i hu
    rw [List.mem_singleton] at hch
    subst hch
    exact unreserved_not_dotExcl _ hu
  · have hval := char_valid_arith c
    obtain ⟨b, hb, hcb⟩ := mem_foldr_pct _ ch hch
    exact mem_pctByte_not_dotExcl b
      (utf8Bytes_lt c.toNat (by omega) b hb) ch hcb

theorem mem_encodeURIComponent (s : Str) (ch : Char)
    (h : ch ∈ encodeURIComponent s) : ∃ c ∈ s, ch ∈ encodeChar c := by
  induction s with
  | nil => simp [encodeURIComponent] at h
  | cons c cs ih =>
    rcases List.mem_append.mp h with h1 | h1
    · exact ⟨c, List.mem_cons_self c cs, h1⟩
    · obtain ⟨c2, hc2, hm⟩ := ih h1
      exact ⟨c2, List.mem_cons_of_mem c hc2, hm⟩

theorem mem_joinSep (sep : Char) (l : List Str) (ch : Char)
    (h : ch ∈ joinSep sep l) : ch = sep ∨ ∃ s ∈ l, ch ∈ s := by
  induction l with
  | nil => simp [joinSep] at h
  | cons s ss ih =>
    cases ss with
    | nil => exact Or.inr ⟨s, List.mem_cons_self s [], h⟩
    | cons s2 ss2 =>
      rw [joinSep_cons _ _ _ (by simp)] at h
      rcases List.mem_append.mp h with h1 | h1
      · exact Or.inr ⟨s, List.mem_cons_self s _, h1⟩
      · rcases List.mem_cons.mp h1 with rfl | h2
        · exact Or.inl rfl
        · rcases ih h2 with h3 | ⟨t, ht, hm⟩
          · exact Or.inl h3
          · exact Or.inr ⟨t, List.mem_cons_of_mem s ht, hm⟩

theorem joined_enc_not_dotExcl (segs : List Str) :
    ∀ ch ∈ joinSep '/' (segs.map encodeURIComponent), ¬ dotExcl ch = true := by
  intro ch hch
  rcases mem_joinSep '/' _ ch hch with rfl | ⟨s, hs, hm⟩
  · decide
  · rcases List.mem_map.mp hs with ⟨seg, _, rfl⟩
    obtain ⟨c, _, hmc⟩ := mem_encodeURIComponent seg ch hm
    rw [mem_encodeChar_not_dotExcl c ch hmc]
    simp

theorem encodeURIComponent_eq_nil (s : Str) :
    encodeURIComponent s = [] ↔ s = [] := by
  cases s with
  | nil => simp [encodeURIComponent]
  | cons c cs =>
    simp only [iff_false, List.cons_ne_nil]
    show ¬ (encodeChar c ++ encodeURIComponent cs = [])
    intro hbad
    exact encodeChar_ne_nil c (List.append_eq_nil.mp hbad).1

theorem joined_enc_ne_nil (segs : List Str) (hne : segs ≠ [])
    (hjoin : joinSep '/' segs ≠ []) :
    joinSep '/' (segs.map encodeURIComponent) ≠ [] := by
  cases segs with
  | nil => exact absurd rfl hne
  | cons s ss =>
    cases ss with
    | nil =>
      show encodeURIComponent s ≠ []
      rw [Ne, encodeURIComponent_eq_nil]
      exact hjoin
    | cons s2 ss2 =>
      rw [List.map_cons, joinSep_cons _ _ _ (by simp)]
      simp

theorem splitOnChar_joinSep (sep : Char) (l : List Str) (hne : l ≠ [])
    (hl : ∀ s ∈ l, sep ∉ s) :
    splitOnChar sep (joinSep sep l) = l := by
  induction l with
  | nil => exact absurd rfl hne
  | cons s ss ih =>
    cases ss with
    | nil => exact splitOnChar_of_not_mem sep s (hl s (List.mem_cons_self s []))
    | cons s2 ss2 =>
      rw [joinSep_cons _ _ _ (by simp),
        splitOnChar_append sep s _ (hl s (List.mem_cons_self s _)),
        ih (by simp) (fun t ht => hl t (List.mem_cons_of_mem s ht))]

theorem uriMatchAt_imap (auth enc : Str)
    (hauth : auth ≠ []) (hauthslash : '/' ∉ auth)
    (hencne : enc ≠ []) (hencok : ∀ ch ∈ enc, ¬ dotExcl ch = true) :
    uriMatchAt (str "imap://" ++ (auth ++ '/' :: enc)) = some enc := by
  unfold uriMatchAt
  rw [if_pos (by
    rw [List.isPrefixOf_iff_prefix]
    exact List.prefix_append _ _)]
  rw [show (7 : Nat) = (str "imap://").length from rfl, List.drop_left]
  dsimp only
  rw [takeWhile_append_stop _ auth '/' enc ?hka ?hkc]
  case hka =>
    intro x hx
    simp only [decide_eq_true_eq]
    intro hbad
    exact hauthslash (hbad ▸ hx)
  case hkc => simp
  rw [if_neg hauth, List.drop_left]
  show (if enc.takeWhile (fun c => ¬ dotExcl c) = [] then none
    else some (enc.takeWhile (fun c => ¬ dotExcl c))) = some enc
  rw [takeWhile_all _ enc ?hkall]
  case hkall =>
    intro x hx
    simpa using hencok x hx
  rw [if_neg hencne]

theorem uriMatchAt_mailbox (auth enc : Str)
    (hauth : auth ≠ []) (hauthslash : '/' ∉ auth)
    (hencne : enc ≠ []) (hencok : ∀ ch ∈ enc, ¬ dotExcl ch = true) :
    uriMatchAt (str "mailbox://" ++ (auth ++ '/' :: enc)) = some enc := by
  unfold uriMatchAt
  have hnotimap : (str "imap://").isPrefixOf
      (str "mailbox://" ++ (auth ++ '/' :: enc)) = false := rfl
  rw [hnotimap, if_neg (by simp)]
  rw [if_pos (by
    rw [List.isPrefixOf_iff_prefix]
    exact List.prefix_append _ _)]
  rw [show (10 : Nat) = (str "mailbox://").length from rfl, List.drop_left]
  dsimp only
  rw [takeWhile_append_stop _ auth '/' enc ?hma ?hmc]
  case hma =>
    intro x hx
    simp only [decide_eq_true_eq]
    intro hbad
    exact hauthslash (hbad ▸ hx)
  case hmc => simp
  rw [if_neg hauth, List.drop_left]
  show (if enc.takeWhile (fun c => ¬ dotExcl c) = [] then none
    else some (enc.takeWhile (fun c => ¬ dotExcl c))) = some enc
  rw [takeWhile_all _ enc ?hmall]
  case hmall =>
    intro x hx
    simpa using hencok x hx
  rw [if_neg hencne]

theorem uriCapture_of_matchAt (s cap : Str) (hne : s ≠ [])
    (h : uriMatchAt s = some cap) : uriCapture s = some cap := by
  cases s with
  | nil => exact absurd rfl hne
  | cons c cs =>
    show (match uriMatchAt (c :: cs) with
      | some cap => some cap
      | none => uriCapture cs) = some cap
    rw [h]

/-- **C5 (amended).** For every base URI of a recognized hierarchy scheme
(`imap` or `mailbox`, with a non-empty slash-free authority) and every
non-empty list of `/`-free segments whose joined path is non-empty, decoding
the URI built by the path-to-URI encoder returns exactly the original joined
path: `uriToPath (buildFullUri base (join segs)) = some (join segs)`. -/
theorem pathToUri_roundtrip (scheme auth : Str) (segs : List Str)
    (hscheme : scheme = str "imap" ∨ scheme = str "mailbox")
    (hauth : auth ≠ []) (hauthslash : '/' ∉ auth)
    (hsegs : segs ≠ []) (hsegslash : ∀ s ∈ segs, '/' ∉ s)
    (hjoin : joinSep '/' segs ≠ []) :
    uriToPath (buildFullUri (scheme ++ str "://" ++ auth) (joinSep '/' segs)) =
      .ok (some (joinSep '/' segs)) := by
  have hsplit : splitOnChar '/' (joinSep '/' segs) = segs :=
    splitOnChar_joinSep '/' segs hsegs hsegslash
  have hbuild : buildFullUri (scheme ++ str "://" ++ auth) (joinSep '/' segs) =
      scheme ++ str "://" ++ auth ++
        '/' :: joinSep '/' (segs.map encodeURIComponent) := by
    unfold buildFullUri
    rw [hsplit]
  rw [hbuild]
  have hencne := joined_enc_ne_nil segs hsegs hjoin
  have hencok := joined_enc_not_dotExcl segs
  have hshape : scheme ++ str "://" ++ auth ++
      '/' :: joinSep '/' (segs.map encodeURIComponent) =
      (scheme ++ str "://") ++
        (auth ++ '/' :: joinSep '/' (segs.map encodeURIComponent)) := by
    rw [List.append_assoc]
  have hmatch : uriMatchAt (scheme ++ str "://" ++ auth ++
      '/' :: joinSep '/' (segs.map encodeURIComponent)) =
      some (joinSep '/' (segs.map encodeURIComponent)) := by
    rcases hscheme with rfl | rfl
    · rw [hshape, show str "imap" ++ str "://" = str "imap://" from by decide]
      exact uriMatchAt_imap auth _ hauth hauthslash hencne hencok
    · rw [hshape, show str "mailbox" ++ str "://" = str "mailbox://" from by decide]
      exact uriMatchAt_mailbox auth _ hauth hauthslash hencne hencok
  have hcap := uriCapture_of_matchAt _ _ ?hne hmatch
  case hne =>
    intro hbad
    have := List.append_eq_nil.mp hbad
    exact List.cons_ne_nil _ _ this.2
  unfold uriToPath
  rw [hcap]
  dsimp only
  rw [decodePercent_joined segs hsegs]

/-- **C5 counterexample.** The single empty segment: the encoder produces
`base + "/"`, which the decoder rejects (the regex requires a non-empty
capture), so the round trip returns null instead of the empty path. -/
theorem pathToUri_roundtrip_counterexample :
    buildFullUri (str "imap://u@h") (joinSep '/' [([] : Str)]) =
      str "imap://u@h/" ∧
    uriToPath (str "imap://u@h/") = .ok none ∧
    (Except.ok none : Except Str (Option Str)) ≠
      .ok (some (joinSep '/' [([] : Str)])) := by
  refine ⟨by decide, by decide, by decide⟩

/-- Witness for `pathToUri_roundtrip` at a concrete base URI and segments
containing a space and unicode. -/
theorem pathToUri_roundtrip_witness :
    uriToPath (buildFullUri (str "imap" ++ str "://" ++ str "u@h")
      (joinSep '/' [str "My Folder", str "é!"])) =
      .ok (some (joinSep '/' [str "My Folder", str "é!"])) :=
  pathToUri_roundtrip (str "imap") (str "u@h") [str "My Folder", str "é!"]
    (Or.inl rfl) (by decide) (by decide) (by decide) (by decide) (by decide)

-- ===========================================================================
-- RuleParser / RuleGenerator: `parse`, `sortRawRules`, `extractBaseUri`
-- ===========================================================================

/-- A parsed filter rule. -/
structure Rule where
  path : Str
  emails : List Str
  uri : Str
  enabled : Bool
deriving DecidableEq

/-- JavaScript's multiline `^` matches after a line terminator. -/
def isLineTerm (c : Char) : Bool :=
  c = '\n' || c = '\r' || c = ' ' || c = ' '

/-- The scanner of `content.split(/^name=/m)`: pieces between occurrences of
`name=` at line starts, the marker itself dropped.  The counter is only a
structural termination device (each step consumes at least one character);
`splitNameEqAux_fuel` shows the result does not depend on it at or above the
string length. -/
def splitNameEqAux : Nat → Str → Bool → List Str
  | _, [], _ => [[]]
  | 0, _ :: _, _ => [[]]
  | fuel + 1, c :: cs, atLS =>
    if atLS ∧ (str "name=").isPrefixOf (c :: cs) then
      [] :: splitNameEqAux fuel ((c :: cs).drop 5) false
    else consHead c (splitNameEqAux fuel cs (isLineTerm c))

/-- `content.split(/^name=/m)`. -/
def splitNameEq (s : Str) : List Str := splitNameEqAux s.length s true

/-- The scanner of `.split(/(?=name=")/)` (lookahead split, marker kept):
a piece boundary opens before every occurrence of `name="` at a position
greater than zero. -/
def sbmGo : Str → Bool → List Str
  | [], _ => [[]]
  | c :: cs, atStart =>
    if ¬ atStart ∧ (str "name=\"").isPrefixOf (c :: cs) then
      [] :: consHead c (sbmGo cs false)
    else consHead c (sbmGo cs false)

/-- The move-to-folder action literal. -/
def actionLit : Str := str "action=\"Move to folder\""

/-- After the action literal, find the first `actionValue="` occurrence whose
capture `([^"]+)` succeeds (the lazy `[\s\S]*?` tries occurrences left to
right; a failed capture lets the scan continue). -/
def findValueAfter : Str → Option Str
  | [] => none
  | c :: cs =>
    if (str "actionValue=\"").isPrefixOf (c :: cs) then
      if ((c :: cs).drop (str "actionValue=\"").length).takeWhile (· ≠ '"')
          = [] ∨
        ¬ (((c :: cs).drop (str "actionValue=\"").length).takeWhile
            (· ≠ '"')).length <
          ((c :: cs).drop (str "actionValue=\"").length).length then
        findValueAfter cs
      else
        some (((c :: cs).drop (str "actionValue=\"").length).takeWhile
          (· ≠ '"'))
    else findValueAfter cs

/-- `extractUriFromBlock`: the regex
`action="Move to folder"[\s\S]*?actionValue="([^"]+)"`.  The engine tries
match start positions left to right; a later `action` occurrence searches a
subset of the `actionValue` occurrences available to an earlier one, so if
the first `action` occurrence finds no valid capture, none does — hence the
first occurrence's search is the regex's answer. -/
def extractUriFromBlock : Str → Option Str
  | [] => none
  | c :: cs =>
    if actionLit.isPrefixOf (c :: cs) then
      findValueAfter ((c :: cs).drop actionLit.length)
    else extractUriFromBlock cs

/-- One character expected literally. -/
def expectChar (c : Char) : Str → Option Str
  | x :: xs => if x = c then some xs else none
  | [] => none

/-- A lowercase literal matched case-insensitively (the regex `i` flag). -/
def expectCI (lit : Str) (s : Str) : Option Str :=
  if (s.take lit.length).map jsLowerChar = lit then some (s.drop lit.length)
  else none

/-- One match attempt of `\(from\s*,\s*(?:contains|is)\s*,\s*([^)]+)\)` at the
start of `s`: returns the capture and the remainder after the whole match.
`contains` and `is` start with different letters, so the alternation is
deterministic; `\s*` and `([^)]+)` are maximal runs forced by the following
literal. -/
def condMatchAt (s : Str) : Option (Str × Str) :=
  (expectChar '(' s).bind fun s1 =>
  (expectCI (str "from") s1).bind fun s2 =>
  (expectChar ',' (s2.dropWhile isJsWhite)).bind fun s4 =>
  (match expectCI (str "contains") (s4.dropWhile isJsWhite) with
    | some r => some r
    | none => expectCI (str "is") (s4.dropWhile isJsWhite)).bind fun s6 =>
  (expectChar ',' (s6.dropWhile isJsWhite)).bind fun s8 =>
  let s9 := s8.dropWhile isJsWhite
  if s9.takeWhile (· ≠ ')') = [] ∨
      ¬ (s9.takeWhile (· ≠ ')')).length < s9.length then none
  else
    some (s9.takeWhile (· ≠ ')'),
      s9.drop ((s9.takeWhile (· ≠ ')')).length + 1))

/-- `.replace(/^"|"$/g, '')`: one leading and one trailing quote removed. -/
def stripEdgeQuotes (s : Str) : Str :=
  let s1 := match s with
    | '"' :: t => t
    | _ => s
  if s1.getLast? = some '"' then s1.dropLast else s1

/-- The `condRegex.exec` loop of `parse`: scan for condition matches, resume
after each whole match (`lastIndex`), normalize each capture (strip one pair
of edge quotes, trim, lower-case) and keep it when it contains an `@`.  The
counter is only a structural termination device; each step consumes at least
one character. -/
def extractEmailsAux : Nat → Str → List Str
  | _, [] => []
  | 0, _ :: _ => []
  | fuel + 1, c :: cs =>
    match condMatchAt (c :: cs) with
    | some (cap, rest) =>
      (if (jsLower (jsTrim (stripEdgeQuotes cap))).contains '@' then
        [jsLower (jsTrim (stripEdgeQuotes cap))]
       else []) ++ extractEmailsAux fuel rest
    | none => extractEmailsAux fuel cs

/-- The email-condition extraction of one rule block. -/
def extractEmailsFromBlock (block : Str) : List Str :=
  extractEmailsAux block.length block

/-- One iteration of `parse`'s block loop: skip blank blocks, skip blocks
without a resolvable move-to-folder path (falsy: absent or empty), else build
the rule record; a `URIError` from decoding propagates. -/
def parseBlockM (block : Str) : Except Str (Option Rule) :=
  if jsTrim block = [] then .ok none
  else
    match extractUriFromBlock block with
    | none => .ok none
    | some uri =>
      match uriToPath uri with
      | .error e => .error e
      | .ok none => .ok none
      | .ok (some path) =>
        if path = [] then .ok none
        else .ok (some ⟨path, extractEmailsFromBlock block, uri,
          hasSubstr (str "enabled=\"yes\"") block⟩)

/-- Left-to-right effectful map over the blocks (the `for` loop: the first
thrown `URIError` aborts the whole parse). -/
def mapBlocks (f : Str → Except Str (Option Rule)) :
    List Str → Except Str (List (Option Rule))
  | [] => .ok []
  | x :: xs =>
    match f x with
    | .error e => .error e
    | .ok y =>
      match mapBlocks f xs with
      | .error e => .error e
      | .ok ys => .ok (y :: ys)

/-- `RuleEngine.parse`. -/
def parse (content : Str) : Except Str (List Rule) :=
  if content = [] then .ok []
  else
    match mapBlocks parseBlockM (splitNameEq content) with
    | .error e => .error e
    | .ok opts => .ok (opts.filterMap id)

/-- The sort key of one raw rule block:
`(extractPathFromBlock(block) || 'zzz').toLowerCase()`. -/
def ruleSortKey (block : Str) : Except Str Str :=
  match extractUriFromBlock block with
  | none => .ok (jsLower (str "zzz"))
  | some uri =>
    match uriToPath uri with
    | .error e => .error e
    | .ok none => .ok (jsLower (str "zzz"))
    | .ok (some p) =>
      if p = [] then .ok (jsLower (str "zzz")) else .ok (jsLower p)

/-- Code-point lexicographic strict order, modelling `localeCompare < 0`
(they coincide on the lower-cased keys arising in this development, and the
multiset statements below do not depend on the order chosen). -/
def strCmpLt : Str → Str → Bool
  | [], [] => false
  | [], _ :: _ => true
  | _ :: _, [] => false
  | a :: as, b :: bs =>
    if a.toNat < b.toNat then true
    else if b.toNat < a.toNat then false
    else strCmpLt as bs

/-- Stable insertion for the keyed blocks: an equal or smaller existing key
stays in front of the inserted block (`Array.prototype.sort` is stable). -/
def insertKeyed (x : Str × Str) : List (Str × Str) → List (Str × Str)
  | [] => [x]
  | y :: ys =>
    if ¬ strCmpLt x.1 y.1 then y :: insertKeyed x ys else x :: y :: ys

/-- Compute every block's sort key (the comparator's key computations; a
thrown `URIError` aborts the sort). -/
def keyRules : List Str → Except Str (List (Str × Str))
  | [] => .ok []
  | b :: bs =>
    match ruleSortKey b with
    | .error e => .error e
    | .ok k =>
      match keyRules bs with
      | .error e => .error e
      | .ok ks => .ok ((k, b) :: ks)

/-- `RuleEngine.sortRawRules`: keep the text before the first `name="`
verbatim, split the remainder into blocks with the lookahead split, sort the
blocks by resolved path (stable), and rejoin without separators.  `sort` on
fewer than two elements never invokes the comparator, so no key is computed
then; with at least two, every element enters some comparison, and all key
errors carry the same `URIError` message, so computing the keys first is
observationally equivalent. -/
def sortRawRules (content : Str) : Except Str Str :=
  match idxOfSubstr (str "name=\"") content with
  | none => .ok content
  | some i =>
    if (sbmGo (content.drop i) true).length ≤ 1 then .ok content
    else
      match keyRules (sbmGo (content.drop i) true) with
      | .error e => .error e
      | .ok keyed =>
        .ok (content.take i ++
          ((keyed.foldl (fun acc x => insertKeyed x acc) []).map (·.2)).flatten)

/-- The scan of `extractBaseUri`'s regex
`actionValue="(imap:\/\/[^/]+)\//`: the capture is `imap://` plus the maximal
slash-free run, which must be non-empty and followed by `/`. -/
def baseUriScan : Str → Option Str
  | [] => none
  | c :: cs =>
    if (str "actionValue=\"imap://").isPrefixOf (c :: cs) then
      if ((c :: cs).drop (str "actionValue=\"imap://").length).takeWhile
            (· ≠ '/') = [] ∨
          ¬ (((c :: cs).drop (str "actionValue=\"imap://").length).takeWhile
              (· ≠ '/')).length <
            ((c :: cs).drop (str "actionValue=\"imap://").length).length then
        baseUriScan cs
      else
        some (str "imap://" ++
          ((c :: cs).drop (str "actionValue=\"imap://").length).takeWhile
            (· ≠ '/'))
    else baseUriScan cs

/-- `RuleEngine.extractBaseUri` (placeholder URI when nothing matches). -/
def extractBaseUri (content : Str) : Str :=
  (baseUriScan content).getD (str "imap://REPLACE_ME")

-- ===========================================================================
-- C6: which of the parsing / path functions can throw, and with what error
-- ===========================================================================

theorem uriToPath_error_eq (uri e : Str) (h : uriToPath uri = .error e) :
    e = str "URI malformed" ∧
      ∃ cap, uriCapture uri = some cap ∧ decodePercent cap = none := by
  cases hc : uriCapture uri with
  | none => simp [uriToPath, hc] at h
  | some cap =>
    cases hd : decodePercent cap with
    | none =>
      simp only [uriToPath, hc, hd, Except.error.injEq] at h
      exact ⟨h.symm, cap, rfl, hd⟩
    | some p => simp [uriToPath, hc, hd] at h

theorem ruleSortKey_error_eq (b e : Str) (h : ruleSortKey b = .error e) :
    e = str "URI malformed" := by
  cases hx : extractUriFromBlock b with
  | none => simp [ruleSortKey, hx] at h
  | some uri =>
    cases hu : uriToPath uri with
    | error e2 =>
      simp only [ruleSortKey, hx, hu, Except.error.injEq] at h
      exact h ▸ (uriToPath_error_eq uri e2 hu).1
    | ok o =>
      cases o with
      | none => simp [ruleSortKey, hx, hu] at h
      | some p =>
        by_cases hp : p = [] <;> simp [ruleSortKey, hx, hu, hp] at h

theorem keyRules_error_eq (l : List Str) (e : Str) (h : keyRules l = .error e) :
    e = str "URI malformed" := by
  induction l with
  | nil => simp [keyRules] at h
  | cons b bs ih =>
    cases hk : ruleSortKey b with
    | error e2 =>
      simp only [keyRules, hk, Except.error.injEq] at h
      exact h ▸ ruleSortKey_error_eq b e2 hk
    | ok k =>
      cases hr : keyRules bs with
      | error e2 =>
        simp only [keyRules, hk, hr, Except.error.injEq] at h
        exact ih (h ▸ hr)
      | ok ks => simp [keyRules, hk, hr] at h

theorem parseBlockM_error_eq (b e : Str) (h : parseBlockM b = .error e) :
    e = str "URI malformed" := by
  by_cases ht : jsTrim b = []
  · simp [parseBlockM, ht] at h
  · cases hx : extractUriFromBlock b with
    | none => simp [parseBlockM, ht, hx] at h
    | some uri =>
      cases hu : uriToPath uri with
      | error e2 =>
        have hval : parseBlockM b = Except.error e2 := by
          simp [parseBlockM, ht, hx, hu]
        have he : e2 = e := Except.error.inj (hval.symm.trans h)
        exact he ▸ (uriToPath_error_eq uri e2 hu).1
      | ok o =>
        cases o with
        | none => simp [parseBlockM, ht, hx, hu] at h
        | some p =>
          by_cases hp : p = [] <;> simp [parseBlockM, ht, hx, hu, hp] at h

theorem mapBlocks_error_eq (l : List Str) (e : Str)
    (h : mapBlocks parseBlockM l = .error e) : e = str "URI malformed" := by
  induction l with
  | nil => simp [mapBlocks] at h
  | cons b bs ih =>
    cases hk : parseBlockM b with
    | error e2 =>
      simp only [mapBlocks, hk, Except.error.injEq] at h
      exact h ▸ parseBlockM_error_eq b e2 hk
    | ok y =>
      cases hr : mapBlocks parseBlockM bs with
      | error e2 =>
        simp only [mapBlocks, hk, hr, Except.error.injEq] at h
        exact ih (h ▸ hr)
      | ok ys => simp [mapBlocks, hk, hr] at h

theorem parse_error_eq (content e : Str) (h : parse content = .error e) :
    e = str "URI malformed" := by
  by_cases hc : content = []
  · simp [parse, hc] at h
  · cases hm : mapBlocks parseBlockM (splitNameEq content) with
    | error e2 =>
      have hval : parse content = Except.error e2 := by
        simp [parse, hc, hm]
      have he : e2 = e := Except.error.inj (hval.symm.trans h)
      exact he ▸ mapBlocks_error_eq _ e2 hm
    | ok opts => simp [parse, hc, hm] at h

theorem sortRawRules_error_eq (content e : Str)
    (h : sortRawRules content = .error e) : e = str "URI malformed" := by
  cases hi : idxOfSubstr (str "name=\"") content with
  | none => simp [sortRawRules, hi] at h
  | some i =>
    by_cases hl : (sbmGo (content.drop i) true).length ≤ 1
    · simp [sortRawRules, hi, hl] at h
    · cases hk : keyRules (sbmGo (content.drop i) true) with
      | error e2 =>
        have hval : sortRawRules content = Except.error e2 := by
          simp [sortRawRules, hi, hk, hl]
        have he : e2 = e := Except.error.inj (hval.symm.trans h)
        exact he ▸ keyRules_error_eq _ e2 hk
      | ok ks => simp [sortRawRules, hi, hk, hl] at h

/-- **C6.** Corrected no-throw claim: `emailToPath` and `extractBaseUri` are
total (they are embedded without an error monad), and a URI that matches
neither hierarchy scheme makes `uriToPath` return `null` — but `uriToPath`,
`parse` and `sortRawRules` are not exception-free: each can throw, and the
only exception any of them throws is `decodeURIComponent`'s
`URIError: URI malformed`, raised on a captured path whose percent-escapes
are malformed. -/
theorem nothrow_spec (uri content : Str) :
    (∀ e, uriToPath uri = .error e →
      e = str "URI malformed" ∧
        ∃ cap, uriCapture uri = some cap ∧ decodePercent cap = none) ∧
    (uriCapture uri = none → uriToPath uri = .ok none) ∧
    (∀ e, parse content = .error e → e = str "URI malformed") ∧
    (∀ e, sortRawRules content = .error e → e = str "URI malformed") := by
  refine ⟨fun e h => uriToPath_error_eq uri e h, fun hc => ?_,
    fun e h => parse_error_eq content e h,
    fun e h => sortRawRules_error_eq content e h⟩
  unfold uriToPath
  rw [hc]

/-- **C6 witness.** The amended theorem applied at a concrete malformed URI:
a bare `%` in the path makes `uriToPath` throw `URI malformed`. -/
theorem nothrow_spec_witness :
    str "URI malformed" = str "URI malformed" ∧
      ∃ cap, uriCapture (str "imap://h/%") = some cap ∧
        decodePercent cap = none :=
  (nothrow_spec (str "imap://h/%") []).1 (str "URI malformed") (by decide)

/-- **C6 counterexample.** The original claim is false: `uriToPath`, `parse`
and `sortRawRules` all throw a `URIError` on a rule whose `actionValue` path
contains a malformed percent-escape, rather than returning null or an empty
result. -/
theorem nothrow_counterexample :
    uriToPath (str "imap://h/%") = .error (str "URI malformed") ∧
    parse (str "name=\"X\"\naction=\"Move to folder\"\nactionValue=\"imap://h/%\"\n")
      = .error (str "URI malformed") ∧
    sortRawRules
        (str "name=\"X\"\naction=\"Move to folder\"\nactionValue=\"imap://h/%\"\nname=\"Y\"\n")
      = .error (str "URI malformed") := by
  refine ⟨by decide, by decide, by decide⟩

-- ===========================================================================
-- C4: sorting the raw rule file preserves the parsed rules (well-formed files)
-- ===========================================================================

/-- Attach a string to the front of the first piece of a split result. -/
def attachPre (a : Str) : List Str → List Str
  | [] => [a]
  | p :: ps => (a ++ p) :: ps

theorem consHead_ne_nil (c : Char) (xs : List Str) : consHead c xs ≠ [] := by
  cases xs <;> simp [consHead]

theorem attachPre_nil (xs : List Str) (h : xs ≠ []) : attachPre [] xs = xs := by
  cases xs with
  | nil => exact absurd rfl h
  | cons p ps => simp [attachPre]

theorem consHead_attachPre (c : Char) (a : Str) (xs : List Str) :
    consHead c (attachPre a xs) = attachPre (c :: a) xs := by
  cases xs <;> rfl

theorem consHead_eq_attachPre (c : Char) (xs : List Str) :
    consHead c xs = attachPre [c] xs := by
  cases xs <;> rfl

theorem splitNameEqAux_ne_nil (f : Nat) (s : Str) (flag : Bool) :
    splitNameEqAux f s flag ≠ [] := by
  match f, s with
  | _, [] => cases f <;> simp [splitNameEqAux]
  | 0, _ :: _ => simp [splitNameEqAux]
  | f + 1, c :: cs =>
    rw [splitNameEqAux]
    split
    · simp
    · exact consHead_ne_nil _ _

theorem sbmGo_ne_nil (s : Str) (flag : Bool) : sbmGo s flag ≠ [] := by
  cases s with
  | nil => simp [sbmGo]
  | cons c cs =>
    rw [sbmGo]
    split
    · simp
    · exact consHead_ne_nil _ _

theorem splitNameEqAux_fuel (f1 : Nat) : ∀ (s : Str) (flag : Bool) (f2 : Nat),
    s.length ≤ f1 → s.length ≤ f2 →
    splitNameEqAux f1 s flag = splitNameEqAux f2 s flag := by
  induction f1 with
  | zero =>
    intro s flag f2 h1 _
    rw [List.length_eq_zero.mp (Nat.le_zero.mp h1)]
    cases f2 <;> rfl
  | succ f1 ih =>
    intro s flag f2 h1 h2
    cases s with
    | nil => cases f2 <;> rfl
    | cons c cs =>
      cases f2 with
      | zero => exact absurd h2 (by simp)
      | succ f2 =>
        rw [splitNameEqAux, splitNameEqAux]
        by_cases hc : flag = true ∧ (str "name=").isPrefixOf (c :: cs) = true
        · rw [if_pos hc, if_pos hc]
          have hd : ((c :: cs).drop 5).length ≤ f1 := by
            simp only [List.length_drop, List.length_cons]
            simp only [List.length_cons] at h1
            omega
          have hd2 : ((c :: cs).drop 5).length ≤ f2 := by
            simp only [List.length_drop, List.length_cons]
            simp only [List.length_cons] at h2
            omega
          rw [ih _ false _ hd hd2]
        · rw [if_neg hc, if_neg hc]
          have hd : cs.length ≤ f1 := by
            simp only [List.length_cons] at h1; omega
          have hd2 : cs.length ≤ f2 := by
            simp only [List.length_cons] at h2; omega
          rw [ih _ (isLineTerm c) _ hd hd2]

/-- A marker containing no newline cannot match at a position whose remaining
room inside the current chunk is shorter than the marker, when the chunk ends
with a newline: the matched part would have to contain that newline. -/
theorem no_marker_span (n a2 rest : Str) (hnl : '\n' ∉ n)
    (hlast : a2.getLast? = some '\n') (hlen : a2.length ≤ n.length)
    (hpre : n.isPrefixOf (a2 ++ rest) = true) : False := by
  obtain ⟨t, ht⟩ := List.isPrefixOf_iff_prefix.mp hpre
  have ha2 : a2 = n.take a2.length := by
    calc a2 = (a2 ++ rest).take a2.length := (List.take_left a2 rest).symm
    _ = (n ++ t).take a2.length := by rw [ht]
    _ = n.take a2.length ++ t.take (a2.length - n.length) :=
        List.take_append_eq_append_take
    _ = n.take a2.length ++ t.take 0 := by rw [Nat.sub_eq_zero_of_le hlen]
    _ = n.take a2.length := by simp
  have hmem : '\n' ∈ a2 := List.mem_of_mem_getLast? hlast
  exact hnl ((List.take_prefix a2.length n).subset (ha2 ▸ hmem))

theorem marker_prefix_of_long (n a2 rest : Str) (hlen : n.length ≤ a2.length)
    (hpre : n.isPrefixOf (a2 ++ rest) = true) : n.isPrefixOf a2 = true := by
  obtain ⟨t, ht⟩ := List.isPrefixOf_iff_prefix.mp hpre
  apply List.isPrefixOf_iff_prefix.mpr
  have hn : n = a2.take n.length := by
    calc n = (n ++ t).take n.length := (List.take_left n t).symm
    _ = (a2 ++ rest).take n.length := by rw [ht]
    _ = a2.take n.length := List.take_append_of_le_length hlen
  rw [hn]
  exact List.take_prefix _ _

theorem suffix_drop_pos (a2 b : Str) (h : List.IsSuffix a2 b)
    (hlt : a2.length < b.length) : ∃ i, 0 < i ∧ b.drop i = a2 := by
  obtain ⟨w, hw⟩ := h
  refine ⟨w.length, ?_, ?_⟩
  · have : w.length + a2.length = b.length := by rw [← hw]; simp
    omega
  · rw [← hw]; exact List.drop_left _ _

theorem getLast?_of_suffix (a2 b : Str) (h : List.IsSuffix a2 b)
    (hne : a2 ≠ []) : a2.getLast? = b.getLast? := by
  obtain ⟨w, hw⟩ := h
  rw [← hw]
  exact (List.getLast?_append_of_ne_nil w hne).symm

theorem splitAux_marker (f : Nat) (u : Str) :
    splitNameEqAux (f + 1) (str "name=" ++ u) true
      = [] :: splitNameEqAux f u false := by
  rw [show str "name=" ++ u = 'n' :: 'a' :: 'm' :: 'e' :: '=' :: u from rfl]
  rw [splitNameEqAux,
    if_pos ⟨rfl, List.isPrefixOf_iff_prefix.mpr ⟨u, rfl⟩⟩]
  rfl

/-- Scanning `a ++ rest` when no `name=` occurrence starts inside `a`:
`a` is glued onto the first piece of the scan of `rest`, which starts at a
line start whenever `a` is non-empty (it then ends with a newline). -/
theorem splitAux_append (a : Str) : ∀ (rest : Str) (flag : Bool) (f : Nat),
    (a ++ rest).length ≤ f →
    (a = [] ∨ a.getLast? = some '\n') →
    (∀ a2, a2 ≠ [] → List.IsSuffix a2 a →
      ¬ (str "name=").isPrefixOf (a2 ++ rest) = true) →
    splitNameEqAux f (a ++ rest) flag
      = attachPre a (splitNameEqAux rest.length rest
          (if a = [] then flag else true)) := by
  induction a with
  | nil =>
    intro rest flag f hf _ _
    simp only [List.nil_append, if_pos rfl]
    rw [attachPre_nil _ (splitNameEqAux_ne_nil _ _ _)]
    exact splitNameEqAux_fuel f rest flag rest.length (by simpa using hf)
      le_rfl
  | cons c a' ih =>
    intro rest flag f hf hnl hno
    cases f with
    | zero => exact absurd hf (by simp)
    | succ f =>
      rw [show (c :: a') ++ rest = c :: (a' ++ rest) from rfl, splitNameEqAux]
      have hnp : ¬ (str "name=").isPrefixOf (c :: (a' ++ rest)) = true := by
        have := hno (c :: a') (by simp) (List.suffix_refl _)
        simpa using this
      rw [if_neg (fun hcond => hnp hcond.2)]
      rw [if_neg (by simp : ¬ (c :: a') = [])]
      cases ha' : a' with
      | nil =>
        have hc : c = '\n' := by
          rcases hnl with h | h
          · exact absurd h (by simp)
          · rw [ha'] at h
            simpa using h
        subst ha'
        have hlt : isLineTerm c = true := by rw [hc]; decide
        rw [hlt]
        rw [List.nil_append,
          splitNameEqAux_fuel f rest true rest.length (by simpa using hf)
            le_rfl]
        exact consHead_eq_attachPre c _
      | cons d a'' =>
        rw [← ha']
        have ha'ne : a' ≠ [] := by rw [ha']; simp
        have hnl' : a' = [] ∨ a'.getLast? = some '\n' := by
          right
          rcases hnl with h | h
          · exact absurd h (by simp)
          · rw [ha'] at h ⊢
            rw [List.getLast?_cons_cons] at h
            exact h
        have hno' : ∀ a2, a2 ≠ [] → List.IsSuffix a2 a' →
            ¬ (str "name=").isPrefixOf (a2 ++ rest) = true :=
          fun a2 h1 h2 => hno a2 h1 (h2.trans (List.suffix_cons c a'))
        have hlen' : (a' ++ rest).length ≤ f := by
          simp only [List.length_cons, List.cons_append,
            List.length_append] at hf
          simp only [List.length_append]
          omega
        rw [ih rest (isLineTerm c) f hlen' hnl' hno']
        rw [if_neg ha'ne]
        exact consHead_attachPre c a' _

/-- Scanning the concatenation of well-formed blocks from a line start: one
piece boundary opens at the start of each block, and each piece is the block
with its leading `name=` stripped. -/
theorem splitAux_blocks (blocks : List Str)
    (hb : ∀ b ∈ blocks, (str "name=\"").isPrefixOf b = true ∧
      b.getLast? = some '\n' ∧
      ∀ i, 0 < i → ¬ (str "name=").isPrefixOf (b.drop i) = true) :
    ∀ f, blocks.flatten.length ≤ f →
    splitNameEqAux f blocks.flatten true = [] :: blocks.map (·.drop 5) := by
  induction blocks with
  | nil =>
    intro f _
    cases f <;> rfl
  | cons b bs ih =>
    intro f hf
    obtain ⟨hpre, hlast, hinner⟩ := hb b (by simp)
    obtain ⟨t, ht⟩ := List.isPrefixOf_iff_prefix.mp hpre
    subst ht
    have hqt : ('"' :: t) ≠ [] := by simp
    have hqlast : ('"' :: t).getLast? = some '\n' := by
      rw [show str "name=\"" ++ t = str "name=" ++ ('"' :: t) from rfl] at hlast
      rw [← List.getLast?_append_of_ne_nil (str "name=") hqt]
      exact hlast
    cases f with
    | zero =>
      exfalso
      simp only [List.flatten_cons, List.length_append, Nat.le_zero] at hf
      have h6 : (str "name=\"").length = 6 := rfl
      omega
    | succ f =>
      rw [List.flatten_cons,
        show (str "name=\"" ++ t) ++ bs.flatten
          = str "name=" ++ (('"' :: t) ++ bs.flatten) from by
            rw [List.append_assoc]; rfl,
        splitAux_marker]
      rw [splitAux_append ('"' :: t) bs.flatten false f ?hlen
        (Or.inr hqlast) ?hno]
      case hlen =>
        simp only [List.flatten_cons, List.length_append] at hf
        have h6 : (str "name=\"").length = 6 := rfl
        simp only [List.length_append, List.length_cons]
        omega
      case hno =>
        intro a2 h1 h2 hcontra
        by_cases hl : (str "name=").length ≤ a2.length
        · have hp5 := marker_prefix_of_long _ _ _ hl hcontra
          have hsufb : List.IsSuffix a2 (str "name=\"" ++ t) :=
            h2.trans ⟨str "name=", rfl⟩
          have hlt : a2.length < (str "name=\"" ++ t).length := by
            have := h2.length_le
            have h6 : (str "name=\"" ++ t).length = 6 + t.length := by
              rw [List.length_append]
              have h6a : (str "name=\"").length = 6 := rfl
              omega
            simp only [List.length_cons] at this
            omega
          obtain ⟨i, hi, hdrop⟩ := suffix_drop_pos _ _ hsufb hlt
          exact hinner i hi (hdrop ▸ hp5)
        · have hlast2 : a2.getLast? = some '\n' := by
            rw [getLast?_of_suffix a2 ('"' :: t) h2 h1]
            exact hqlast
          refine no_marker_span (str "name=") a2 bs.flatten (by decide)
            hlast2 ?_ hcontra
          have h5 : (str "name=").length = 5 := rfl
          omega
      rw [if_neg hqt]
      rw [ih (fun b hb2 => hb b (by simp [hb2])) bs.flatten.length le_rfl]
      rw [show attachPre ('"' :: t) ([] :: bs.map (·.drop 5))
        = ('"' :: t) :: bs.map (·.drop 5) from by simp [attachPre]]
      rfl

/-- `content.split(/^name=/m)` of a well-formed rule file: the header is the
first piece, and each block is a piece with its `name=` marker stripped. -/
theorem splitNameEq_decomp (header : Str) (blocks : List Str)
    (hh1 : header = [] ∨ header.getLast? = some '\n')
    (hh2 : ∀ i, ¬ (str "name=").isPrefixOf (header.drop i) = true)
    (hb : ∀ b ∈ blocks, (str "name=\"").isPrefixOf b = true ∧
      b.getLast? = some '\n' ∧
      ∀ i, 0 < i → ¬ (str "name=").isPrefixOf (b.drop i) = true) :
    splitNameEq (header ++ blocks.flatten)
      = header :: blocks.map (·.drop 5) := by
  unfold splitNameEq
  rw [splitAux_append header blocks.flatten true _ le_rfl hh1 ?hno]
  case hno =>
    intro a2 h1 h2 hcontra
    by_cases hl : (str "name=").length ≤ a2.length
    · have hp5 := marker_prefix_of_long _ _ _ hl hcontra
      obtain ⟨w, hw⟩ := h2
      have hdr : header.drop w.length = a2 := by
        rw [← hw]; exact List.drop_left _ _
      exact hh2 w.length (hdr ▸ hp5)
    · have hlast : a2.getLast? = some '\n' := by
        rcases hh1 with h | h
        · rw [h] at h2
          exact absurd (List.suffix_nil.mp h2) h1
        · rw [getLast?_of_suffix a2 header h2 h1]
          exact h
      refine no_marker_span (str "name=") a2 blocks.flatten (by decide)
        hlast ?_ hcontra
      have h5 : (str "name=").length = 5 := rfl
      omega
  have hflag : (if header = ([] : Str) then true else true) = true := by
    by_cases h : header = [] <;> simp [h]
  rw [hflag]
  rw [splitAux_blocks blocks hb blocks.flatten.length le_rfl]
  cases header <;> simp [attachPre]

theorem idxOf_none (header : Str)
    (hh2 : ∀ i, ¬ (str "name=").isPrefixOf (header.drop i) = true) :
    idxOfSubstr (str "name=\"") header = none := by
  induction header with
  | nil => rfl
  | cons c h' ih =>
    rw [idxOfSubstr, if_neg ?hn]
    case hn =>
      intro hcontra
      obtain ⟨t, ht⟩ := List.isPrefixOf_iff_prefix.mp hcontra
      have h5 : (str "name=").isPrefixOf (c :: h') = true :=
        List.isPrefixOf_iff_prefix.mpr ⟨'"' :: t, by rw [← ht]; rfl⟩
      exact hh2 0 h5
    rw [ih (fun i => hh2 (i + 1))]
    rfl

theorem idxOf_append (header rest : Str)
    (hh1 : header = [] ∨ header.getLast? = some '\n')
    (hh2 : ∀ i, ¬ (str "name=").isPrefixOf (header.drop i) = true)
    (hrest : (str "name=\"").isPrefixOf rest = true) :
    idxOfSubstr (str "name=\"") (header ++ rest) = some header.length := by
  induction header with
  | nil =>
    cases rest with
    | nil => exact absurd hrest (by decide)
    | cons c cs =>
      simp only [List.nil_append]
      rw [idxOfSubstr, if_pos hrest]
      rfl
  | cons c h' ih =>
    rw [List.cons_append, idxOfSubstr, if_neg ?hn]
    case hn =>
      intro hcontra
      by_cases hl : (str "name=\"").length ≤ (c :: h').length
      · have hp6 := marker_prefix_of_long _ _ _ hl hcontra
        obtain ⟨t, ht⟩ := List.isPrefixOf_iff_prefix.mp hp6
        have h5 : (str "name=").isPrefixOf (c :: h') = true :=
          List.isPrefixOf_iff_prefix.mpr ⟨'"' :: t, by rw [← ht]; rfl⟩
        exact hh2 0 h5
      · have hlast : (c :: h').getLast? = some '\n' := by
          rcases hh1 with h | h
          · exact absurd h (by simp)
          · exact h
        refine no_marker_span (str "name=\"") (c :: h') rest (by decide)
          hlast ?_ hcontra
        have h6 : (str "name=\"").length = 6 := rfl
        omega
    have hh1' : h' = [] ∨ h'.getLast? = some '\n' := by
      rcases hh1 with h | h
      · exact absurd h (by simp)
      · cases h' with
        | nil => exact Or.inl rfl
        | cons d h'' =>
          right
          rw [List.getLast?_cons_cons] at h
          exact h
    rw [ih hh1' (fun i => hh2 (i + 1))]
    rfl

theorem sbmGo_false_nb (a : Str) : ∀ (rest : Str),
    (∀ a2, a2 ≠ [] → List.IsSuffix a2 a →
      ¬ (str "name=\"").isPrefixOf (a2 ++ rest) = true) →
    sbmGo (a ++ rest) false = attachPre a (sbmGo rest false) := by
  induction a with
  | nil =>
    intro rest _
    rw [List.nil_append, attachPre_nil _ (sbmGo_ne_nil _ _)]
  | cons c a' ih =>
    intro rest hno
    rw [show (c :: a') ++ rest = c :: (a' ++ rest) from rfl, sbmGo]
    have hnp : ¬ (str "name=\"").isPrefixOf (c :: (a' ++ rest)) = true := by
      have := hno (c :: a') (by simp) (List.suffix_refl _)
      simpa using this
    rw [if_neg (fun hcond => hnp hcond.2)]
    rw [ih rest (fun a2 h1 h2 => hno a2 h1 (h2.trans (List.suffix_cons c a')))]
    exact consHead_attachPre c a' _

/-- Scanning a chunk from the very start of the split input: the lookahead
never splits at position zero, and with no marker occurrence at the chunk's
later positions, the chunk is glued onto the first piece of the rest. -/
theorem sbmGo_append (a rest : Str) (ha : a ≠ [])
    (hno : ∀ a2, a2 ≠ [] → a2 ≠ a → List.IsSuffix a2 a →
      ¬ (str "name=\"").isPrefixOf (a2 ++ rest) = true) :
    sbmGo (a ++ rest) true = attachPre a (sbmGo rest false) := by
  cases a with
  | nil => exact absurd rfl ha
  | cons c a' =>
    rw [show (c :: a') ++ rest = c :: (a' ++ rest) from rfl, sbmGo]
    rw [if_neg (by simp)]
    rw [sbmGo_false_nb a' rest ?hno']
    case hno' =>
      intro a2 h1 h2
      refine hno a2 h1 ?_ (h2.trans (List.suffix_cons c a'))
      intro heq
      have := h2.length_le
      rw [heq] at this
      simp at this
    exact consHead_attachPre c a' _

theorem sbmGo_false_boundary (s : Str)
    (hs : (str "name=\"").isPrefixOf s = true) :
    sbmGo s false = [] :: sbmGo s true := by
  cases s with
  | nil => exact absurd hs (by decide)
  | cons c cs =>
    rw [sbmGo, if_pos ⟨by simp, hs⟩]
    rw [show sbmGo (c :: cs) true = consHead c (sbmGo cs false) from by
      rw [sbmGo, if_neg (by simp)]]

/-- The lookahead split `.split(/(?=name=")/)` recovers exactly the blocks of
a well-formed concatenation. -/
theorem sbmGo_blocks (blocks : List Str) (hbne : blocks ≠ [])
    (hb : ∀ b ∈ blocks, (str "name=\"").isPrefixOf b = true ∧
      b.getLast? = some '\n' ∧
      ∀ i, 0 < i → ¬ (str "name=").isPrefixOf (b.drop i) = true) :
    sbmGo blocks.flatten true = blocks := by
  induction blocks with
  | nil => exact absurd rfl hbne
  | cons b bs ih =>
    obtain ⟨hpre, hlast, hinner⟩ := hb b (by simp)
    have hbne2 : b ≠ [] := by
      intro h
      rw [h] at hpre
      exact absurd hpre (by decide)
    rw [List.flatten_cons]
    rw [sbmGo_append b bs.flatten hbne2 ?hno]
    case hno =>
      intro a2 h1 hne h2 hcontra
      by_cases hl : (str "name=").length ≤ a2.length
      · have hp6 : (str "name=\"").isPrefixOf a2 = true := by
          by_cases hl6 : (str "name=\"").length ≤ a2.length
          · exact marker_prefix_of_long _ _ _ hl6 hcontra
          · exfalso
            have hlast2 : a2.getLast? = some '\n' := by
              rw [getLast?_of_suffix a2 b h2 h1]; exact hlast
            refine no_marker_span (str "name=\"") a2 bs.flatten (by decide)
              hlast2 ?_ hcontra
            omega
        have hp5 : (str "name=").isPrefixOf a2 = true := by
          obtain ⟨t, ht⟩ := List.isPrefixOf_iff_prefix.mp hp6
          exact List.isPrefixOf_iff_prefix.mpr ⟨'"' :: t, by rw [← ht]; rfl⟩
        have hlt : a2.length < b.length := by
          have h3 := h2.length_le
          rcases Nat.lt_or_ge a2.length b.length with h4 | h4
          · exact h4
          · exact absurd (h2.eq_of_length (Nat.le_antisymm h3 h4)) hne
        obtain ⟨i, hi, hdrop⟩ := suffix_drop_pos _ _ h2 hlt
        exact hinner i hi (hdrop ▸ hp5)
      · have hlast2 : a2.getLast? = some '\n' := by
          rw [getLast?_of_suffix a2 b h2 h1]; exact hlast
        refine no_marker_span (str "name=\"") a2 bs.flatten (by decide)
          hlast2 ?_ hcontra
        have h5 : (str "name=").length = 5 := rfl
        have h6 : (str "name=\"").length = 6 := rfl
        omega
    cases bs with
    | nil =>
      rw [show (List.flatten ([] : List Str)) = [] from rfl, sbmGo]
      simp [attachPre]
    | cons b2 bs' =>
      obtain ⟨hpre2, _, _⟩ := hb b2 (by simp)
      have hpre2' : (str "name=\"").isPrefixOf (b2 :: bs').flatten = true := by
        rw [List.flatten_cons]
        obtain ⟨t, ht⟩ := List.isPrefixOf_iff_prefix.mp hpre2
        exact List.isPrefixOf_iff_prefix.mpr
          ⟨t ++ bs'.flatten, by rw [← List.append_assoc, ht]⟩
      rw [sbmGo_false_boundary _ hpre2']
      rw [ih (by simp) (fun b' hb' => hb b' (by simp [hb']))]
      simp [attachPre]

/-- The move-to-folder action literal cannot start inside the five marker
characters `name=`, so stripping the marker does not change the extracted
URI. -/
theorem extractUri_name (rest : Str) :
    extractUriFromBlock (str "name=" ++ rest) = extractUriFromBlock rest :=
  rfl

theorem jsTrim_cons_ne (c : Char) (t : Str) (hc : isJsWhite c = false) :
    jsTrim (c :: t) ≠ [] := by
  unfold jsTrim
  simp only [List.dropWhile_cons, hc]
  intro h
  rw [List.reverse_eq_nil_iff, List.dropWhile_eq_nil_iff] at h
  have := h c (by simp)
  rw [hc] at this
  exact Bool.noConfusion this

/-- If parsing a marker-stripped block succeeded (no `URIError`), the sort
comparator's key computation on the unstripped block succeeds too. -/
theorem ruleSortKey_ok_of (b : Str)
    (hpre : (str "name=\"").isPrefixOf b = true)
    (hok : ∃ y, parseBlockM (b.drop 5) = .ok y) :
    ∃ k, ruleSortKey b = .ok k := by
  obtain ⟨t, ht⟩ := List.isPrefixOf_iff_prefix.mp hpre
  subst ht
  have hdrop : (str "name=\"" ++ t).drop 5 = '"' :: t := rfl
  rw [hdrop] at hok
  have hextract : extractUriFromBlock (str "name=\"" ++ t)
      = extractUriFromBlock ('"' :: t) := by
    rw [show str "name=\"" ++ t = str "name=" ++ ('"' :: t) from rfl,
      extractUri_name]
  have htrim : jsTrim ('"' :: t) ≠ [] := jsTrim_cons_ne _ _ (by decide)
  obtain ⟨y, hy⟩ := hok
  cases hx : extractUriFromBlock ('"' :: t) with
  | none =>
    exact ⟨jsLower (str "zzz"), by simp [ruleSortKey, hextract, hx]⟩
  | some uri =>
    cases hu : uriToPath uri with
    | error e =>
      exfalso
      have hval : parseBlockM ('"' :: t) = .error e := by
        simp [parseBlockM, htrim, hx, hu]
      rw [hval] at hy
      exact Except.noConfusion hy
    | ok o =>
      cases o with
      | none =>
        exact ⟨jsLower (str "zzz"), by simp [ruleSortKey, hextract, hx, hu]⟩
      | some p =>
        by_cases hp : p = []
        · exact ⟨jsLower (str "zzz"),
            by simp [ruleSortKey, hextract, hx, hu, hp]⟩
        · exact ⟨jsLower p, by simp [ruleSortKey, hextract, hx, hu, hp]⟩

/-- The value a successful per-block parse contributes. -/
def okOr (x : Except Str (Option Rule)) : Option Rule :=
  match x with
  | .ok y => y
  | .error _ => none

theorem mapBlocks_ok_elim (f : Str → Except Str (Option Rule)) :
    ∀ (l : List Str) (opts : List (Option Rule)),
    mapBlocks f l = .ok opts →
    opts = l.map (fun b => okOr (f b)) ∧ ∀ b ∈ l, f b = .ok (okOr (f b)) := by
  intro l
  induction l with
  | nil =>
    intro opts h
    simp [mapBlocks] at h
    subst h
    exact ⟨rfl, by simp⟩
  | cons b bs ih =>
    intro opts h
    cases hk : f b with
    | error e =>
      exfalso
      have hval : mapBlocks f (b :: bs) = .error e := by
        simp [mapBlocks, hk]
      rw [hval] at h
      exact Except.noConfusion h
    | ok y =>
      cases hr : mapBlocks f bs with
      | error e =>
        exfalso
        have hval : mapBlocks f (b :: bs) = .error e := by
          simp [mapBlocks, hk, hr]
        rw [hval] at h
        exact Except.noConfusion h
      | ok ys =>
        have hval : mapBlocks f (b :: bs) = .ok (y :: ys) := by
          simp [mapBlocks, hk, hr]
        rw [hval] at h
        have hopts : opts = y :: ys := (Except.ok.inj h).symm
        obtain ⟨hmap, hall⟩ := ih ys hr
        have hyb : okOr (f b) = y := by rw [hk]; rfl
        subst hopts
        constructor
        · rw [List.map_cons, hyb, ← hmap]
        · intro b' hb'
          rcases List.mem_cons.mp hb' with rfl | hmem
          · rw [hk]; rfl
          · exact hall b' hmem

theorem mapBlocks_ok_intro (f : Str → Except Str (Option Rule)) :
    ∀ (l : List Str), (∀ b ∈ l, f b = .ok (okOr (f b))) →
    mapBlocks f l = .ok (l.map fun b => okOr (f b)) := by
  intro l
  induction l with
  | nil => intro _; rfl
  | cons b bs ih =>
    intro h
    have hb := h b (by simp)
    have hbs := ih (fun b' hb' => h b' (by simp [hb']))
    cases hfb : f b with
    | error e =>
      rw [hfb] at hb
      exact Except.noConfusion hb
    | ok y =>
      simp [mapBlocks, okOr, hfb, hbs]

theorem keyRules_ok (l : List Str)
    (h : ∀ b ∈ l, ∃ k, ruleSortKey b = .ok k) :
    ∃ ks, keyRules l = .ok ks ∧ ks.map (·.2) = l := by
  induction l with
  | nil => exact ⟨[], rfl, rfl⟩
  | cons b bs ih =>
    obtain ⟨k, hk⟩ := h b (by simp)
    obtain ⟨ks, hks, hmap⟩ := ih (fun b' hb' => h b' (by simp [hb']))
    exact ⟨(k, b) :: ks, by simp [keyRules, hk, hks], by simp [hmap]⟩

theorem insertKeyed_perm (x : Str × Str) (l : List (Str × Str)) :
    (insertKeyed x l).Perm (x :: l) := by
  induction l with
  | nil => exact List.Perm.refl _
  | cons y ys ih =>
    rw [insertKeyed]
    by_cases hlt : ¬ strCmpLt x.1 y.1 = true
    · rw [if_pos hlt]
      exact (ih.cons y).trans (List.Perm.swap x y ys)
    · rw [if_neg hlt]

theorem foldl_insertKeyed_perm :
    ∀ (l acc : List (Str × Str)),
    (l.foldl (fun acc x => insertKeyed x acc) acc).Perm (l ++ acc) := by
  intro l
  induction l with
  | nil => intro acc; simp
  | cons x l ih =>
    intro acc
    rw [List.foldl_cons]
    refine (ih (insertKeyed x acc)).trans ?_
    refine ((List.Perm.append_left l (insertKeyed_perm x acc)).trans
      List.perm_middle).trans ?_
    simp

theorem not_prefix_all_of_short (n s : Str) (hn : n ≠ [])
    (h : ∀ i, i < s.length → ¬ n.isPrefixOf (s.drop i) = true) :
    ∀ i, ¬ n.isPrefixOf (s.drop i) = true := by
  intro i
  by_cases hi : i < s.length
  · exact h i hi
  · rw [List.drop_eq_nil_of_le (Nat.le_of_not_lt hi)]
    cases n with
    | nil => exact absurd rfl hn
    | cons a as => simp [List.isPrefixOf]

theorem not_prefix_pos_of_short (n s : Str) (hn : n ≠ [])
    (h : ∀ i, i < s.length → 0 < i → ¬ n.isPrefixOf (s.drop i) = true) :
    ∀ i, 0 < i → ¬ n.isPrefixOf (s.drop i) = true := by
  intro i hi
  by_cases hlt : i < s.length
  · exact h i hlt hi
  · rw [List.drop_eq_nil_of_le (Nat.le_of_not_lt hlt)]
    cases n with
    | nil => exact absurd rfl hn
    | cons a as => simp [List.isPrefixOf]

/-- **C4.** Corrected preservation claim: for a well-formed rule file — a
header that ends with a newline (or is empty) and contains no `name=`, and
blocks that each start with `name="`, end with a newline, and contain
`name=` only at their start — `sortRawRules` emits the header followed by a
permutation of the blocks, and re-parsing the sorted text yields a
permutation (the same multiset) of the originally parsed Rule records.  (The
well-formedness is necessary: without a trailing newline on the last block,
sorting can glue two blocks into one and `parse` then drops a rule — see the
counterexample.) -/
theorem sort_preserves_rules (header : Str) (blocks : List Str)
    (rules : List Rule)
    (hh1 : header = [] ∨ header.getLast? = some '\n')
    (hh2 : ∀ i, ¬ (str "name=").isPrefixOf (header.drop i) = true)
    (hb : ∀ b ∈ blocks, (str "name=\"").isPrefixOf b = true ∧
      b.getLast? = some '\n' ∧
      ∀ i, 0 < i → ¬ (str "name=").isPrefixOf (b.drop i) = true)
    (hp : parse (header ++ blocks.flatten) = .ok rules) :
    ∃ (sorted : List Str) (rules2 : List Rule),
      sortRawRules (header ++ blocks.flatten)
        = .ok (header ++ sorted.flatten) ∧
      sorted.Perm blocks ∧
      parse (header ++ sorted.flatten) = .ok rules2 ∧
      rules2.Perm rules := by
  cases blocks with
  | nil =>
    refine ⟨[], rules, ?_, List.Perm.refl _, hp, List.Perm.refl _⟩
    have hidx : idxOfSubstr (str "name=\"") header = none :=
      idxOf_none header hh2
    simp [sortRawRules, hidx]
  | cons b bs =>
    have hbne : (b :: bs) ≠ ([] : List Str) := by simp
    have hpre_b : (str "name=\"").isPrefixOf b = true := (hb b (by simp)).1
    have hbnonnil : b ≠ [] := by
      intro hbn
      rw [hbn] at hpre_b
      exact absurd hpre_b (by decide)
    have hpre_flat : (str "name=\"").isPrefixOf (b :: bs).flatten = true := by
      rw [List.flatten_cons]
      obtain ⟨t, ht⟩ := List.isPrefixOf_iff_prefix.mp hpre_b
      exact List.isPrefixOf_iff_prefix.mpr
        ⟨t ++ bs.flatten, by rw [← List.append_assoc, ht]⟩
    have hidx : idxOfSubstr (str "name=\"") (header ++ (b :: bs).flatten)
        = some header.length := idxOf_append header _ hh1 hh2 hpre_flat
    have hdropc : (header ++ (b :: bs).flatten).drop header.length
        = (b :: bs).flatten := List.drop_left _ _
    have htake : (header ++ (b :: bs).flatten).take header.length = header :=
      List.take_left _ _
    have hsbm : sbmGo (b :: bs).flatten true = b :: bs :=
      sbmGo_blocks _ hbne hb
    have hsplit : splitNameEq (header ++ (b :: bs).flatten)
        = header :: (b :: bs).map (·.drop 5) :=
      splitNameEq_decomp header _ hh1 hh2 hb
    have hcne : header ++ (b :: bs).flatten ≠ [] := by
      simp [List.append_eq_nil, List.flatten_cons, hbnonnil]
    obtain ⟨opts, hm⟩ : ∃ opts, mapBlocks parseBlockM
        (header :: (b :: bs).map (·.drop 5)) = .ok opts := by
      cases hm0 : mapBlocks parseBlockM (header :: (b :: bs).map (·.drop 5))
        with
      | error e =>
        exfalso
        have hval : parse (header ++ (b :: bs).flatten) = .error e := by
          unfold parse
          rw [if_neg hcne, hsplit, hm0]
        rw [hval] at hp
        exact Except.noConfusion hp
      | ok opts => exact ⟨opts, rfl⟩
    obtain ⟨hopts, hall⟩ := mapBlocks_ok_elim _ _ _ hm
    have hrules : rules = ((header :: (b :: bs).map (·.drop 5)).map
        (fun u => okOr (parseBlockM u))).filterMap id := by
      have hval : parse (header ++ (b :: bs).flatten)
          = .ok (opts.filterMap id) := by
        unfold parse
        rw [if_neg hcne, hsplit, hm]
      rw [hval] at hp
      rw [← Except.ok.inj hp, hopts]
    have hallb : ∀ b' ∈ (b :: bs), parseBlockM (b'.drop 5)
        = .ok (okOr (parseBlockM (b'.drop 5))) := by
      intro b' hb'
      exact hall _
        (List.mem_cons_of_mem header (List.mem_map_of_mem (·.drop 5) hb'))
    by_cases hguard : (b :: bs).length ≤ 1
    · refine ⟨b :: bs, rules, ?_, List.Perm.refl _, hp, List.Perm.refl _⟩
      simp only [sortRawRules, hidx]
      rw [hdropc, hsbm, if_pos hguard]
    · have hkeys : ∀ b' ∈ (b :: bs), ∃ k, ruleSortKey b' = .ok k :=
        fun b' hb' => ruleSortKey_ok_of b' (hb b' hb').1 ⟨_, hallb b' hb'⟩
      obtain ⟨ks, hks, hksmap⟩ := keyRules_ok _ hkeys
      have hperm : (((ks.foldl (fun acc x => insertKeyed x acc) []).map
          (·.2))).Perm (b :: bs) := by
        have h1 := foldl_insertKeyed_perm ks []
        rw [List.append_nil] at h1
        have h2 := h1.map (·.2)
        rw [hksmap] at h2
        exact h2
      have hb2 : ∀ b' ∈ ((ks.foldl (fun acc x => insertKeyed x acc) []).map
          (·.2)), (str "name=\"").isPrefixOf b' = true ∧
          b'.getLast? = some '\n' ∧
          ∀ i, 0 < i → ¬ (str "name=").isPrefixOf (b'.drop i) = true :=
        fun b' hb' => hb b' (hperm.subset hb')
      have hflat2ne : (((ks.foldl (fun acc x => insertKeyed x acc) []).map
          (·.2))).flatten ≠ [] := by
        cases hsb : ((ks.foldl (fun acc x => insertKeyed x acc) []).map
          (·.2)) with
        | nil =>
          exfalso
          have hle := hperm.length_eq
          rw [hsb] at hle
          simp at hle
        | cons b2 bs2 =>
          rw [hsb] at hperm
          rw [List.flatten_cons]
          have hpre2 : (str "name=\"").isPrefixOf b2 = true :=
            (hb b2 (hperm.subset (by simp))).1
          have hb2ne : b2 ≠ [] := by
            intro h
            rw [h] at hpre2
            exact absurd hpre2 (by decide)
          exact List.append_ne_nil_of_ne_nil_left hb2ne _
      have hc2ne : header ++ (((ks.foldl (fun acc x => insertKeyed x acc)
          []).map (·.2))).flatten ≠ [] := by
        intro h
        exact hflat2ne (List.append_eq_nil.mp h).2
      have hsplit2 : splitNameEq (header ++ (((ks.foldl
          (fun acc x => insertKeyed x acc) []).map (·.2))).flatten)
          = header :: ((ks.foldl (fun acc x => insertKeyed x acc) []).map
            (·.2)).map (·.drop 5) :=
        splitNameEq_decomp header _ hh1 hh2 hb2
      have hall2 : ∀ u ∈ (header :: ((ks.foldl
          (fun acc x => insertKeyed x acc) []).map (·.2)).map (·.drop 5)),
          parseBlockM u = .ok (okOr (parseBlockM u)) := by
        intro u hu
        rcases List.mem_cons.mp hu with rfl | hmem
        · exact hall _ (by simp)
        · obtain ⟨b', hb', rfl⟩ := List.mem_map.mp hmem
          exact hallb b' (hperm.subset hb')
      have hm2 := mapBlocks_ok_intro parseBlockM _ hall2
      have hsort : sortRawRules (header ++ (b :: bs).flatten)
          = .ok (header ++ (((ks.foldl (fun acc x => insertKeyed x acc)
            []).map (·.2))).flatten) := by
        simp only [sortRawRules, hidx]
        rw [hdropc, hsbm, if_neg hguard, hks]
        dsimp only
        rw [htake]
      have hp2 : parse (header ++ (((ks.foldl
          (fun acc x => insertKeyed x acc) []).map (·.2))).flatten)
          = .ok (((header :: ((ks.foldl (fun acc x => insertKeyed x acc)
            []).map (·.2)).map (·.drop 5)).map
              (fun u => okOr (parseBlockM u))).filterMap id) := by
        unfold parse
        rw [if_neg hc2ne, hsplit2, hm2]
      refine ⟨_, _, hsort, hperm, hp2, ?_⟩
      rw [hrules]
      exact (((hperm.map (·.drop 5)).cons header).map
        (fun u => okOr (parseBlockM u))).filterMap id

/-- Concrete header and blocks for the C4 witness. -/
def wHeader : Str := str "version=\"9\"\nlogging=\"no\"\n"

def wBlocks : List Str :=
  [str "name=\"B\"\naction=\"Move to folder\"\nactionValue=\"imap://h/B\"\n",
   str "name=\"A\"\naction=\"Move to folder\"\nactionValue=\"imap://h/A\"\n"]

/-- **C4 witness.** The amended theorem applied to a concrete two-rule file:
sorting swaps the two well-formed blocks and re-parsing yields the same two
rules, reordered. -/
theorem sort_preserves_rules_witness :
    ∃ (sorted : List Str) (rules2 : List Rule),
      sortRawRules (wHeader ++ wBlocks.flatten)
        = .ok (wHeader ++ sorted.flatten) ∧
      sorted.Perm wBlocks ∧
      parse (wHeader ++ sorted.flatten) = .ok rules2 ∧
      rules2.Perm [⟨str "B", [], str "imap://h/B", false⟩,
        ⟨str "A", [], str "imap://h/A", false⟩] :=
  sort_preserves_rules wHeader wBlocks
    [⟨str "B", [], str "imap://h/B", false⟩,
     ⟨str "A", [], str "imap://h/A", false⟩]
    (Or.inr (by decide))
    (not_prefix_all_of_short _ _ (by decide) (by decide))
    (by
      intro b hbm
      rcases (show b = str "name=\"B\"\naction=\"Move to folder\"\nactionValue=\"imap://h/B\"\n"
          ∨ b = str "name=\"A\"\naction=\"Move to folder\"\nactionValue=\"imap://h/A\"\n"
        from by simpa [wBlocks] using hbm) with rfl | rfl
      · exact ⟨by decide, by decide,
          not_prefix_pos_of_short _ _ (by decide) (by decide)⟩
      · exact ⟨by decide, by decide,
          not_prefix_pos_of_short _ _ (by decide) (by decide)⟩)
    (by decide)

/-- The C4 counterexample file: two rule blocks with no trailing newline on
the last one. -/
def ct4 : Str :=
  str "name=\"B\"\naction=\"Move to folder\"\nactionValue=\"imap://h/B\"\nname=\"A\"\naction=\"Move to folder\"\nactionValue=\"imap://h/A\""

/-- **C4 counterexample.** The original claim is false: on a rule file whose
last block lacks a trailing newline, `parse` finds two rules, but after
`sortRawRules` the block sorted to the front is glued onto the following
`name="` marker (no newline separates them, so `/^name=/m` no longer splits
there) and re-parsing yields only one rule — the multiset is not
preserved. -/
theorem sort_preserves_rules_counterexample :
    parse ct4 = .ok
      [⟨str "B", [], str "imap://h/B", false⟩,
       ⟨str "A", [], str "imap://h/A", false⟩] ∧
    (match sortRawRules ct4 with
     | .ok s => parse s
     | .error e => .error e)
      = .ok [⟨str "A", [], str "imap://h/A", false⟩] ∧
    ¬ ∃ (r1 r2 : List Rule),
        parse ct4 = .ok r1 ∧
        (match sortRawRules ct4 with
         | .ok s => parse s
         | .error e => .error e) = .ok r2 ∧
        r2.Perm r1 := by
  refine ⟨by decide, by decide, ?_⟩
  rintro ⟨r1, r2, h1, h2, hperm⟩
  have hv1 : parse ct4 = .ok
      [⟨str "B", [], str "imap://h/B", false⟩,
       ⟨str "A", [], str "imap://h/A", false⟩] := by decide
  have hv2 : (match sortRawRules ct4 with
     | .ok s => parse s
     | .error e => .error e)
      = .ok [⟨str "A", [], str "imap://h/A", false⟩] := by decide
  rw [hv1] at h1
  rw [hv2] at h2
  obtain rfl := Except.ok.inj h1
  obtain rfl := Except.ok.inj h2
  simpa using hperm.length_eq

end FilterFolder
